import Mathlib

/-!
Shallow embedding of `tridesclous/catalogueconstructor.py` (class
`CatalogueConstructor`), covering the data model and the operations the
verified claims are about: the peak table, the cluster table and its rebuild
(`on_new_cluster`), trashing of undersized clusters, cluster reordering,
noise-snippet extraction, the noise-estimation length check, the projection
re-application, the signal-processor finalization, and the catalogue
template construction.

Machine integers of the source are modelled as `Int`/`Nat` (no overflow is
relevant at the sizes involved), numpy float arrays as lists of `ℚ`
(`np.nan` fields as `Option ℚ` with `none` for nan), and fallible calls as
`Except`.
-/

namespace Tridesclous

/-- Modelled from the spec: `labelcodes.py` is not part of the available
source tree; the spec only says peak labels are "either a reserved code
(unclassified, noise, trash) or a non-negative cluster label", with the
three reserved codes distinct and negative. The trash code is taken to be
`-1`, the literal that `trash_small_cluster` writes. -/
def LABEL_TRASH : Int := -1

/-- Modelled from the spec: reserved code for not-yet-classified peaks
(distinct negative value, see `LABEL_TRASH`). -/
def LABEL_UNCLASSIFIED : Int := -10

/-- Modelled from the spec: reserved code tagging noise snippets
(distinct negative value, see `LABEL_TRASH`). -/
def LABEL_NOISE : Int := -2

/-- One row of the `all_peaks` array, `_dtype_peak` in the source:
`[('index', 'int64'), ('label', 'int64'), ('segment', 'int64')]`. -/
structure Peak where
  index : Int
  label : Int
  segment : Int
deriving Repr, DecidableEq

/-- One row of the `clusters` array, `_dtype_cluster` in the source.
`max_peak_amplitude` and `waveform_rms` are float64 initialized to
`np.nan`; the unset (nan) state is `none`. -/
structure ClusterRow where
  cluster_label : Int
  cell_label : Int
  max_on_channel : Int
  max_peak_amplitude : Option ℚ
  waveform_rms : Option ℚ
  nb_peak : Nat
deriving Repr, DecidableEq

/-- Number of peaks carrying label `k`: `np.sum(all_peaks['label'] == k)`. -/
def countLabel (ps : List Peak) (k : Int) : Nat :=
  ps.countP (fun p => decide (p.label = k))

/-- Number of occurrences of `k` in a list of labels. -/
def countInt (l : List Int) (k : Int) : Nat :=
  l.countP (fun x => decide (x = k))

/-- Insertion of a value into a sorted duplicate-free list, keeping it
sorted and duplicate-free; folding it over a list realizes `np.unique`. -/
def insertSorted (x : Int) : List Int → List Int
  | [] => [x]
  | y :: ys =>
      if x < y then x :: y :: ys
      else if x = y then y :: ys
      else y :: insertSorted x ys

/-- Embedding of `np.unique` on int64 arrays: the sorted list of distinct
values. -/
def npUnique (l : List Int) : List Int := l.foldr insertSorted []

theorem mem_insertSorted {y x : Int} {l : List Int} :
    y ∈ insertSorted x l ↔ y = x ∨ y ∈ l := by
  induction l with
  | nil => simp [insertSorted]
  | cons z zs ih =>
      simp only [insertSorted]
      split
      · simp [List.mem_cons]
      · split
        · rename_i hlt heq
          subst heq
          simp [List.mem_cons]
        · simp [List.mem_cons, ih]
          tauto

theorem sorted_insertSorted (x : Int) {l : List Int}
    (h : l.Sorted (· < ·)) : (insertSorted x l).Sorted (· < ·) := by
  induction l with
  | nil => simp [insertSorted]
  | cons z zs ih =>
      rw [List.sorted_cons] at h
      obtain ⟨hz, hzs⟩ := h
      simp only [insertSorted]
      split
      · rename_i hlt
        rw [List.sorted_cons]
        refine ⟨?_, ?_⟩
        · intro b hb
          rcases List.mem_cons.mp hb with hb | hb
          · omega
          · exact lt_trans hlt (hz b hb)
        · rw [List.sorted_cons]; exact ⟨hz, hzs⟩
      · split
        · rw [List.sorted_cons]; exact ⟨hz, hzs⟩
        · rename_i hnlt hne
          rw [List.sorted_cons]
          refine ⟨?_, ih hzs⟩
          intro b hb
          rcases mem_insertSorted.mp hb with hb | hb
          · omega
          · exact hz b hb

theorem sorted_npUnique (l : List Int) : (npUnique l).Sorted (· < ·) := by
  induction l with
  | nil => simp [npUnique]
  | cons x xs ih => exact sorted_insertSorted x ih

theorem nodup_npUnique (l : List Int) : (npUnique l).Nodup :=
  (sorted_npUnique l).nodup

theorem mem_npUnique {y : Int} {l : List Int} :
    y ∈ npUnique l ↔ y ∈ l := by
  induction l with
  | nil => simp [npUnique]
  | cons x xs ih =>
      show y ∈ insertSorted x (npUnique xs) ↔ _
      rw [mem_insertSorted, ih]
      simp [List.mem_cons]

theorem npUnique_ne_nil {l : List Int} (h : l ≠ []) : npUnique l ≠ [] := by
  obtain ⟨x, hx⟩ := List.exists_mem_of_ne_nil l h
  intro hcon
  have := mem_npUnique.mpr hx
  rw [hcon] at this
  simp at this

theorem npUnique_all_eq {l : List Int} {a : Int} (hne : l ≠ [])
    (hall : ∀ x ∈ l, x = a) : npUnique l = [a] := by
  induction l with
  | nil => exact absurd rfl hne
  | cons x xs ih =>
      have hxa : x = a := hall x (List.mem_cons_self x xs)
      by_cases hxs : xs = []
      · subst hxs; subst hxa; simp [npUnique, insertSorted]
      · have : npUnique xs = [a] := ih hxs (fun y hy => hall y (List.mem_cons_of_mem x hy))
        show insertSorted x (npUnique xs) = [a]
        rw [this, hxa]
        simp [insertSorted]

theorem sum_map_add {α : Type} (l : List α) (f g : α → Nat) :
    (l.map (fun x => f x + g x)).sum = (l.map f).sum + (l.map g).sum := by
  induction l with
  | nil => simp
  | cons x xs ih => simp [ih]; omega

theorem sum_indicator (u : List Int) (x : Int) (hu : u.Nodup) :
    (u.map (fun k => if x = k then (1 : Nat) else 0)).sum
      = if x ∈ u then 1 else 0 := by
  induction u with
  | nil => simp
  | cons z zs ih =>
      rw [List.nodup_cons] at hu
      obtain ⟨hz, hzs⟩ := hu
      simp only [List.map_cons, List.sum_cons]
      by_cases hxz : x = z
      · subst hxz
        have : x ∉ zs := hz
        rw [ih hzs]
        simp [this]
      · rw [ih hzs]
        simp [hxz, List.mem_cons]

theorem sum_countInt_filter (u : List Int) (q : Int → Bool) (hu : u.Nodup)
    (ls : List Int) (hcov : ∀ y ∈ ls, y ∈ u) :
    ((u.filter q).map (fun k => countInt ls k)).sum = ls.countP q := by
  induction ls with
  | nil =>
      rw [List.countP_nil]
      apply List.sum_eq_zero
      intro x hx
      obtain ⟨k, _, hk⟩ := List.mem_map.mp hx
      simp [countInt] at hk
      omega
  | cons x ls ih =>
      have hcov' : ∀ y ∈ ls, y ∈ u := fun y hy => hcov y (List.mem_cons_of_mem x hy)
      have hxu : x ∈ u := hcov x (List.mem_cons_self x ls)
      have hcnt : ∀ k, countInt (x :: ls) k
          = countInt ls k + (if x = k then 1 else 0) := by
        intro k
        simp only [countInt, List.countP_cons]
        by_cases h : x = k <;> simp [h]
      have hmapeq : (u.filter q).map (fun k => countInt (x :: ls) k)
          = (u.filter q).map (fun k => countInt ls k + (if x = k then 1 else 0)) := by
        apply List.map_congr_left
        intro k _
        exact hcnt k
      rw [hmapeq, sum_map_add, ih hcov', List.countP_cons,
        sum_indicator _ _ (hu.filter q)]
      by_cases hqx : q x = true
      · have : x ∈ u.filter q := List.mem_filter.mpr ⟨hxu, hqx⟩
        simp [this, hqx]
      · have : x ∉ u.filter q := by
          intro hmem
          exact hqx (List.mem_filter.mp hmem).2
        simp [this, hqx]

theorem sum_countInt (u : List Int) (hu : u.Nodup)
    (ls : List Int) (hcov : ∀ y ∈ ls, y ∈ u) :
    (u.map (fun k => countInt ls k)).sum = ls.length := by
  have h := sum_countInt_filter u (fun _ => true) hu ls hcov
  simpa using h

/-- Waveform tensor entry layout used by the embedding: a waveform is a
time-major list (one entry per sample offset) of per-channel rows. -/
abbrev Waveform := List (List ℚ)

/-- The persisted state of a `CatalogueConstructor`: the persistent arrays
(`_persitent_arrays` in the source) plus the in-memory `projector`.
A detached/absent array is `none`. -/
structure CCState where
  all_peaks : Option (List Peak)
  clusters : Option (List ClusterRow)
  projector : Option (List Waveform → List (List ℚ))
  some_peaks_index : Option (List Nat)
  some_waveforms : Option (List Waveform)
  some_features : Option (List (List ℚ))
  channel_to_features : Option (List (List Bool))
  some_noise_index : Option (List Peak)
  some_noise_snippet : Option (List Waveform)
  some_noise_features : Option (List (List ℚ))
  spike_waveforms_similarity : Option (List (List ℚ))
  cluster_similarity : Option (List (List ℚ))
  cluster_ratio_similarity : Option (List (List ℚ))
  spike_silhouette : Option (List (List ℚ))

/-- State with every array absent (fresh constructor, nothing computed). -/
def emptyState : CCState where
  all_peaks := none
  clusters := none
  projector := none
  some_peaks_index := none
  some_waveforms := none
  some_features := none
  channel_to_features := none
  some_noise_index := none
  some_noise_snippet := none
  some_noise_features := none
  spike_waveforms_similarity := none
  cluster_similarity := none
  cluster_ratio_similarity := none
  spike_silhouette := none

/-- One fresh row of the rebuilt cluster table (`on_new_cluster` body):
`cluster_label` and `cell_label` both set to the label, `max_on_channel`
to `-1`, amplitude and rms to nan, `nb_peak` to the peak count. -/
def rebuildRow (ps : List Peak) (k : Int) : ClusterRow where
  cluster_label := k
  cell_label := k
  max_on_channel := -1
  max_peak_amplitude := none
  waveform_rms := none
  nb_peak := countLabel ps k

/-- Cell-label carry-over of `on_new_cluster` (lines 652-660): if the new
row's `cluster_label` occurs in the previous table, copy the `cell_label`
of the first previous row with that `cluster_label`
(`np.nonzero(...)[0][0]`). -/
def preserveCell (prev : List ClusterRow) (c : ClusterRow) : ClusterRow :=
  match prev.find? (fun pc => decide (pc.cluster_label = c.cluster_label)) with
  | some pc => { c with cell_label := pc.cell_label }
  | none => c

/-- Embedding of `CatalogueConstructor.on_new_cluster` (lines 638-663):
returns unchanged if `all_peaks` is absent; otherwise rebuilds the cluster
table from `np.unique(all_peaks['label'])`, carrying previous `cell_label`
values over, and persists it only when it is non-empty. -/
def on_new_cluster (s : CCState) : CCState :=
  match s.all_peaks with
  | none => s
  | some ps =>
      let labels := npUnique (ps.map (fun p => p.label))
      let base := labels.map (rebuildRow ps)
      let cl := match s.clusters with
        | some prev => base.map (preserveCell prev)
        | none => base
      if cl.length > 0 then { s with clusters := some cl } else s

theorem preserveCell_cluster_label (prev : List ClusterRow) (c : ClusterRow) :
    (preserveCell prev c).cluster_label = c.cluster_label := by
  unfold preserveCell
  cases prev.find? (fun pc => decide (pc.cluster_label = c.cluster_label)) <;> rfl

theorem preserveCell_nb_peak (prev : List ClusterRow) (c : ClusterRow) :
    (preserveCell prev c).nb_peak = c.nb_peak := by
  unfold preserveCell
  cases prev.find? (fun pc => decide (pc.cluster_label = c.cluster_label)) <;> rfl

/-- The rebuilt table: when `all_peaks` holds a non-empty peak list, the
new cluster table is the carried-over fresh table over the distinct
labels. -/
theorem on_new_cluster_clusters (s : CCState) (ps : List Peak)
    (hp : s.all_peaks = some ps) (hne : ps ≠ []) :
    (on_new_cluster s).clusters = some
      (((npUnique (ps.map (fun p => p.label))).map (rebuildRow ps)).map
        (fun c => match s.clusters with
          | some prev => preserveCell prev c
          | none => c)) := by
  have hlab : npUnique (ps.map (fun p => p.label)) ≠ [] := by
    apply npUnique_ne_nil
    intro h
    exact hne (List.map_eq_nil_iff.mp h)
  have hpos : 0 < (npUnique (ps.map (fun p => p.label))).length :=
    List.length_pos.mpr hlab
  unfold on_new_cluster
  rw [hp]
  simp only
  cases hc : s.clusters with
  | none => simp [hpos, Function.comp]
  | some prev => simp [hpos, Function.comp]

/-- Fields other than `clusters` are never touched by `on_new_cluster`. -/
theorem on_new_cluster_frame (s : CCState) :
    on_new_cluster s = s ∨
      ∃ cl, on_new_cluster s = { s with clusters := some cl } := by
  unfold on_new_cluster
  cases s.all_peaks with
  | none => exact Or.inl rfl
  | some ps =>
      simp only
      split
      · right
        exact ⟨_, rfl⟩
      · exact Or.inl rfl

theorem preserveCell_cell_of_find_some {prev : List ClusterRow}
    {c pc : ClusterRow}
    (h : prev.find? (fun x => decide (x.cluster_label = c.cluster_label))
      = some pc) :
    (preserveCell prev c).cell_label = pc.cell_label := by
  unfold preserveCell
  rw [h]

theorem preserveCell_of_find_none {prev : List ClusterRow} {c : ClusterRow}
    (h : prev.find? (fun x => decide (x.cluster_label = c.cluster_label))
      = none) :
    preserveCell prev c = c := by
  unfold preserveCell
  rw [h]

/-- Uniform view of the rebuilt table: there is a cell-carrying function
`g` (identity when no previous table exists) that fixes `cluster_label`
and `nb_peak`, with the new table `g` applied to the fresh rows over the
distinct labels. -/
theorem on_new_cluster_rows (s : CCState) (ps : List Peak)
    (hp : s.all_peaks = some ps) (hne : ps ≠ []) :
    ∃ g : ClusterRow → ClusterRow,
      (on_new_cluster s).clusters = some
        ((npUnique (ps.map (fun p => p.label))).map
          (fun k => g (rebuildRow ps k))) ∧
      (∀ c, (g c).cluster_label = c.cluster_label) ∧
      (∀ c, (g c).nb_peak = c.nb_peak) := by
  refine ⟨fun c => match s.clusters with
    | some prev => preserveCell prev c
    | none => c, ?_, ?_, ?_⟩
  · rw [on_new_cluster_clusters s ps hp hne, List.map_map]
    rfl
  · intro c
    cases s.clusters with
    | none => rfl
    | some prev => exact preserveCell_cluster_label prev c
  · intro c
    cases s.clusters with
    | none => rfl
    | some prev => exact preserveCell_nb_peak prev c

theorem countInt_map_label (ps : List Peak) (k : Int) :
    countInt (ps.map (fun p => p.label)) k = countLabel ps k := by
  unfold countInt countLabel
  rw [List.countP_map]
  rfl

theorem rebuildRow_cluster_label (ps : List Peak) (k : Int) :
    (rebuildRow ps k).cluster_label = k := rfl

theorem rebuildRow_nb_peak (ps : List Peak) (k : Int) :
    (rebuildRow ps k).nb_peak = countLabel ps k := rfl

/-- C1: the claim as frozen fails on the code. `on_new_cluster` rebuilds the
table from every distinct label, negative reserved codes included, so on a
non-empty peak table whose single peak carries the (negative) unclassified
code the sum of `nb_peak` is 1 while the count of peaks with label >= 0 is
0, and the cluster-label set contains the negative label. -/
theorem C1_rebuild_invariant_counterexample :
    ¬ (((((on_new_cluster
            { emptyState with all_peaks := some [⟨0, -10, 0⟩] }).clusters.getD
              []).map (fun c => c.nb_peak)).sum
          = [Peak.mk 0 (-10) 0].countP (fun p => decide (0 ≤ p.label))) ∧
        (∀ k : Int,
          (∃ c ∈ (on_new_cluster
              { emptyState with all_peaks := some [⟨0, -10, 0⟩] }).clusters.getD [],
            c.cluster_label = k) ↔
          (∃ p ∈ [Peak.mk 0 (-10) 0], p.label = k ∧ 0 ≤ k))) := by
  intro h
  exact absurd h.1 (by decide)

/-- C1 amended: after every rebuild on a non-empty peak table, the sum of
`nb_peak` over the cluster table equals the total number of peaks (labels
of every sign), and the set of `cluster_label` values equals the set of all
distinct peak labels. Restricted to non-negative labels the claim's two
equalities do hold: the sum of `nb_peak` over the rows with
`cluster_label >= 0` equals the count of peaks with label >= 0. -/
theorem C1_rebuild_totals (s : CCState) (ps : List Peak)
    (hp : s.all_peaks = some ps) (hne : ps ≠ []) :
    ∃ cl, (on_new_cluster s).clusters = some cl ∧
      ((cl.map (fun c => c.nb_peak)).sum = ps.length) ∧
      (∀ k : Int, (∃ c ∈ cl, c.cluster_label = k) ↔ (∃ p ∈ ps, p.label = k)) ∧
      (((cl.filter (fun c => decide (0 ≤ c.cluster_label))).map
          (fun c => c.nb_peak)).sum
        = ps.countP (fun p => decide (0 ≤ p.label))) := by
  obtain ⟨g, hcl, hg_label, hg_nb⟩ := on_new_cluster_rows s ps hp hne
  set u := npUnique (ps.map (fun p => p.label)) with hu
  have hcov : ∀ y ∈ ps.map (fun p => p.label), y ∈ u := by
    intro y hy
    exact mem_npUnique.mpr hy
  refine ⟨_, hcl, ?_, ?_, ?_⟩
  · -- total count
    rw [List.map_map]
    have hfun : ((fun c => c.nb_peak) ∘ fun k => g (rebuildRow ps k))
        = fun k => countInt (ps.map (fun p => p.label)) k := by
      funext k
      simp only [Function.comp]
      rw [hg_nb, rebuildRow_nb_peak, countInt_map_label]
    rw [hfun, sum_countInt u (nodup_npUnique _) _ hcov, List.length_map]
  · -- label sets
    intro k
    constructor
    · rintro ⟨c, hc, hck⟩
      obtain ⟨k', hk', hck'⟩ := List.mem_map.mp hc
      have hkk : k' = k := by
        rw [← hck, ← hck', hg_label, rebuildRow_cluster_label]
      subst hkk
      obtain ⟨p, hp', hpk⟩ := List.mem_map.mp (mem_npUnique.mp hk')
      exact ⟨p, hp', hpk⟩
    · rintro ⟨p, hp', hpk⟩
      refine ⟨g (rebuildRow ps k), List.mem_map.mpr ⟨k, ?_, rfl⟩, ?_⟩
      · exact mem_npUnique.mpr (List.mem_map.mpr ⟨p, hp', hpk⟩)
      · rw [hg_label, rebuildRow_cluster_label]
  · -- non-negative restriction
    rw [List.filter_map, List.map_map]
    have hcomp : ((fun c => decide (0 ≤ c.cluster_label)) ∘
        fun k => g (rebuildRow ps k)) = fun k => decide (0 ≤ k) := by
      funext k
      simp only [Function.comp]
      rw [hg_label, rebuildRow_cluster_label]
    have hcomp2 : ((fun c => c.nb_peak) ∘ fun k => g (rebuildRow ps k))
        = fun k => countInt (ps.map (fun p => p.label)) k := by
      funext k
      simp only [Function.comp]
      rw [hg_nb, rebuildRow_nb_peak, countInt_map_label]
    rw [hcomp, hcomp2,
      sum_countInt_filter u _ (nodup_npUnique _) _ hcov, List.countP_map]
    rfl

theorem C1_rebuild_totals_witness :
    ∃ cl, (on_new_cluster
        { emptyState with all_peaks := some [⟨0, -10, 0⟩] }).clusters = some cl ∧
      ((cl.map (fun c => c.nb_peak)).sum = [Peak.mk 0 (-10) 0].length) ∧
      (∀ k : Int, (∃ c ∈ cl, c.cluster_label = k) ↔
        (∃ p ∈ [Peak.mk 0 (-10) 0], p.label = k)) ∧
      (((cl.filter (fun c => decide (0 ≤ c.cluster_label))).map
          (fun c => c.nb_peak)).sum
        = [Peak.mk 0 (-10) 0].countP (fun p => decide (0 ≤ p.label))) :=
  C1_rebuild_totals _ [⟨0, -10, 0⟩] rfl (by decide)

/-- C4: at every rebuild performed while a previous cluster table exists,
a new cluster whose `cluster_label` occurs in the previous table receives
the `cell_label` of the (first) previous row with that label, and a new
cluster whose label is absent from the previous table gets
`cell_label = cluster_label`. -/
theorem C4_cell_label_carryover (s : CCState) (ps : List Peak)
    (prev : List ClusterRow) (hp : s.all_peaks = some ps)
    (hc : s.clusters = some prev) (hne : ps ≠ []) :
    ∃ cl, (on_new_cluster s).clusters = some cl ∧
      ∀ c ∈ cl,
        ((∃ pc ∈ prev, pc.cluster_label = c.cluster_label) →
          ∃ pc, prev.find? (fun x => decide (x.cluster_label = c.cluster_label))
              = some pc ∧ pc.cluster_label = c.cluster_label ∧
            c.cell_label = pc.cell_label) ∧
        ((∀ pc ∈ prev, pc.cluster_label ≠ c.cluster_label) →
          c.cell_label = c.cluster_label) := by
  have hcl0 := on_new_cluster_clusters s ps hp hne
  rw [hc] at hcl0
  have hcl : (on_new_cluster s).clusters = some
      (((npUnique (ps.map (fun p => p.label))).map (rebuildRow ps)).map
        (preserveCell prev)) := hcl0
  refine ⟨_, hcl, ?_⟩
  intro c hmem
  obtain ⟨b, hb, hbc⟩ := List.mem_map.mp hmem
  obtain ⟨k, hk, hkb⟩ := List.mem_map.mp hb
  subst hkb
  have hlabel : c.cluster_label = k := by
    rw [← hbc, preserveCell_cluster_label, rebuildRow_cluster_label]
  have hpred : (fun x : ClusterRow => decide
        (x.cluster_label = (rebuildRow ps k).cluster_label))
      = (fun x : ClusterRow => decide (x.cluster_label = c.cluster_label)) := by
    funext x
    rw [rebuildRow_cluster_label, hlabel]
  constructor
  · rintro ⟨pc0, hpc0, hpc0k⟩
    have hsome : (prev.find?
        (fun x => decide (x.cluster_label = c.cluster_label))).isSome := by
      rw [List.find?_isSome]
      exact ⟨pc0, hpc0, by simp [hpc0k]⟩
    obtain ⟨pc, hpc⟩ := Option.isSome_iff_exists.mp hsome
    refine ⟨pc, hpc, ?_, ?_⟩
    · have := List.find?_some hpc
      simpa using this
    · rw [← hbc]
      apply preserveCell_cell_of_find_some
      rw [hpred]
      exact hpc
  · intro hnone
    have hfn : prev.find? (fun x => decide (x.cluster_label = c.cluster_label))
        = none := by
      rw [List.find?_eq_none]
      intro x hx
      simp [hnone x hx]
    have hid : preserveCell prev (rebuildRow ps k) = rebuildRow ps k := by
      apply preserveCell_of_find_none
      rw [hpred]
      exact hfn
    rw [← hbc, hid]
    rfl

theorem C4_cell_label_carryover_witness :
    ∃ cl, (on_new_cluster
        { emptyState with
            all_peaks := some [⟨0, 5, 0⟩, ⟨1, 7, 0⟩],
            clusters := some [⟨5, 99, -1, none, none, 1⟩] }).clusters
        = some cl ∧
      ∀ c ∈ cl,
        ((∃ pc ∈ [ClusterRow.mk 5 99 (-1) none none 1],
            pc.cluster_label = c.cluster_label) →
          ∃ pc, [ClusterRow.mk 5 99 (-1) none none 1].find?
              (fun x => decide (x.cluster_label = c.cluster_label))
              = some pc ∧ pc.cluster_label = c.cluster_label ∧
            c.cell_label = pc.cell_label) ∧
        ((∀ pc ∈ [ClusterRow.mk 5 99 (-1) none none 1],
            pc.cluster_label ≠ c.cluster_label) →
          c.cell_label = c.cluster_label) :=
  C4_cell_label_carryover _ [⟨0, 5, 0⟩, ⟨1, 7, 0⟩]
    [⟨5, 99, -1, none, none, 1⟩] rfl rfl (by decide)

/-- Embedding of `_reset_waveform_and_features` (lines 345-356): every
array of `_reset_after_peak_arrays` (the seven waveform/feature/noise
arrays plus the four similarity metrics) is detached and the attribute set
to `None`. -/
def reset_waveform_and_features (s : CCState) : CCState :=
  { s with
    some_peaks_index := none
    some_waveforms := none
    some_features := none
    channel_to_features := none
    some_noise_index := none
    some_noise_snippet := none
    some_noise_features := none
    spike_waveforms_similarity := none
    cluster_similarity := none
    cluster_ratio_similarity := none
    spike_silhouette := none }

/-- Embedding of `finalize_signalprocessor_loop` (lines 292-301): after the
peak array is finalized, reset everything downstream of peak detection and
rebuild the cluster table. -/
def finalize_signalprocessor_loop (s : CCState) : CCState :=
  on_new_cluster (reset_waveform_and_features s)

/-- Peak records appended by the detection loop
(`signalprocessor_one_chunk`, lines 255-260, and the identical block of
`re_detect_peak`, lines 334-339): every detected position becomes a peak
labelled `LABEL_UNCLASSIFIED` with its segment number. The stream of
detected `(position, segment)` pairs abstracts the peak-detector engine. -/
def detectedPeaks (det : List (Int × Int)) : List Peak :=
  det.map (fun d => ⟨d.1, LABEL_UNCLASSIFIED, d.2⟩)

/-- Embedding of `run_signalprocessor` (lines 303-306): stream every
segment (which rebuilds `all_peaks` from the detector output), then
finalize. -/
def run_signalprocessor (s : CCState) (det : List (Int × Int)) : CCState :=
  finalize_signalprocessor_loop { s with all_peaks := some (detectedPeaks det) }

/-- Embedding of `re_detect_peak` (lines 308-343): reinitialize
`all_peaks`, re-stream the processed signal through the detector, then the
same `_reset_waveform_and_features` plus `on_new_cluster` finalization. -/
def re_detect_peak (s : CCState) (det : List (Int × Int)) : CCState :=
  on_new_cluster (reset_waveform_and_features
    { s with all_peaks := some (detectedPeaks det) })

/-- Python exceptions relevant to the embedded methods. -/
inductive PyError where
  | assertionError : PyError
  | nameError : String → PyError
deriving Repr, DecidableEq

/-- Embedding of `apply_projection` (lines 612-619). The method asserts a
fitted projector, computes `features = self.projector.transform(...)`
(line 614), and then line 619 persists `some_features.astype(...)` — but
`some_features` is an unbound local name (the transform result was bound
to `features`), so the CPython interpreter raises `NameError` there. -/
def apply_projection (s : CCState) : Except PyError CCState :=
  match s.projector with
  | none => .error .assertionError
  | some proj =>
      let _features := proj (s.some_waveforms.getD [])
      .error (.nameError "some_features")

/-- C3: the claim is right about the intent and the code has a slip: with
no fitted projector the assert fires, but with a fitted projector the call
never completes either — line 619 reads the undefined local
`some_features` (the transform result was bound to `features`), raising
`NameError` instead of persisting the features. -/
theorem C3_apply_projection_raises (s : CCState) :
    (s.projector = none → apply_projection s = .error .assertionError) ∧
    (∀ proj, s.projector = some proj →
      apply_projection s = .error (.nameError "some_features")) := by
  constructor
  · intro h
    unfold apply_projection
    rw [h]
  · intro proj h
    unfold apply_projection
    rw [h]

theorem C3_apply_projection_raises_witness :
    apply_projection emptyState = .error .assertionError ∧
    apply_projection { emptyState with projector := some (fun _ => []) }
      = .error (.nameError "some_features") :=
  ⟨(C3_apply_projection_raises emptyState).1 rfl,
   (C3_apply_projection_raises
      { emptyState with projector := some (fun _ => []) }).2 _ rfl⟩

theorem countLabel_detectedPeaks (det : List (Int × Int)) :
    countLabel (detectedPeaks det) LABEL_UNCLASSIFIED = det.length := by
  unfold countLabel detectedPeaks
  rw [List.countP_map]
  exact List.countP_eq_length.mpr (fun d _ => by simp)

theorem detectedPeaks_labels (det : List (Int × Int)) :
    (detectedPeaks det).map (fun p => p.label)
      = det.map (fun _ => LABEL_UNCLASSIFIED) := by
  unfold detectedPeaks
  rw [List.map_map]
  rfl

/-- C9: after `run_signalprocessor` (and likewise after `re_detect_peak`)
every stage downstream of peak detection is absent — the working index
selection, waveform tensor, features, channel attribution, noise
index/snippets/features and all four similarity/silhouette metrics are
`none` — and the cluster table has been rebuilt from the current,
all-unclassified peak set: a single cluster row carrying
`LABEL_UNCLASSIFIED` whose `nb_peak` is the number of detected peaks. -/
theorem C9_downstream_reset (s : CCState) (det : List (Int × Int))
    (hne : det ≠ []) :
    ∀ s', (s' = run_signalprocessor s det ∨ s' = re_detect_peak s det) →
      s'.some_peaks_index = none ∧ s'.some_waveforms = none ∧
      s'.some_features = none ∧ s'.channel_to_features = none ∧
      s'.some_noise_index = none ∧ s'.some_noise_snippet = none ∧
      s'.some_noise_features = none ∧ s'.spike_waveforms_similarity = none ∧
      s'.cluster_similarity = none ∧ s'.cluster_ratio_similarity = none ∧
      s'.spike_silhouette = none ∧
      s'.all_peaks = some (detectedPeaks det) ∧
      ∃ c : ClusterRow, s'.clusters = some [c] ∧
        c.cluster_label = LABEL_UNCLASSIFIED ∧ c.nb_peak = det.length := by
  have hdp : detectedPeaks det ≠ [] := by
    unfold detectedPeaks
    intro h
    exact hne (List.map_eq_nil_iff.mp h)
  set t := reset_waveform_and_features
    { s with all_peaks := some (detectedPeaks det) } with ht
  have hp : t.all_peaks = some (detectedPeaks det) := rfl
  obtain ⟨g, hcl, hg_label, hg_nb⟩ := on_new_cluster_rows t _ hp hdp
  have huni : npUnique ((detectedPeaks det).map (fun p => p.label))
      = [LABEL_UNCLASSIFIED] := by
    rw [detectedPeaks_labels]
    apply npUnique_all_eq
    · intro h
      exact hne (List.map_eq_nil_iff.mp h)
    · intro x hx
      obtain ⟨d, _, hxd⟩ := List.mem_map.mp hx
      exact hxd.symm
  rw [huni] at hcl
  have key :
      (on_new_cluster t).some_peaks_index = none ∧
      (on_new_cluster t).some_waveforms = none ∧
      (on_new_cluster t).some_features = none ∧
      (on_new_cluster t).channel_to_features = none ∧
      (on_new_cluster t).some_noise_index = none ∧
      (on_new_cluster t).some_noise_snippet = none ∧
      (on_new_cluster t).some_noise_features = none ∧
      (on_new_cluster t).spike_waveforms_similarity = none ∧
      (on_new_cluster t).cluster_similarity = none ∧
      (on_new_cluster t).cluster_ratio_similarity = none ∧
      (on_new_cluster t).spike_silhouette = none ∧
      (on_new_cluster t).all_peaks = some (detectedPeaks det) ∧
      ∃ c : ClusterRow, (on_new_cluster t).clusters = some [c] ∧
        c.cluster_label = LABEL_UNCLASSIFIED ∧ c.nb_peak = det.length := by
    have hframe := on_new_cluster_frame t
    have hfields :
        (on_new_cluster t).some_peaks_index = t.some_peaks_index ∧
        (on_new_cluster t).some_waveforms = t.some_waveforms ∧
        (on_new_cluster t).some_features = t.some_features ∧
        (on_new_cluster t).channel_to_features = t.channel_to_features ∧
        (on_new_cluster t).some_noise_index = t.some_noise_index ∧
        (on_new_cluster t).some_noise_snippet = t.some_noise_snippet ∧
        (on_new_cluster t).some_noise_features = t.some_noise_features ∧
        (on_new_cluster t).spike_waveforms_similarity
          = t.spike_waveforms_similarity ∧
        (on_new_cluster t).cluster_similarity = t.cluster_similarity ∧
        (on_new_cluster t).cluster_ratio_similarity
          = t.cluster_ratio_similarity ∧
        (on_new_cluster t).spike_silhouette = t.spike_silhouette ∧
        (on_new_cluster t).all_peaks = t.all_peaks := by
      rcases hframe with h | ⟨cl, h⟩ <;> rw [h] <;>
        exact ⟨rfl, rfl, rfl, rfl, rfl, rfl, rfl, rfl, rfl, rfl, rfl, rfl⟩
    obtain ⟨h1, h2, h3, h4, h5, h6, h7, h8, h9, h10, h11, h12⟩ := hfields
    refine ⟨h1, h2, h3, h4, h5, h6, h7, h8, h9, h10, h11, h12, ?_⟩
    refine ⟨g (rebuildRow (detectedPeaks det) LABEL_UNCLASSIFIED), ?_, ?_, ?_⟩
    · rw [hcl]
      rfl
    · rw [hg_label, rebuildRow_cluster_label]
    · rw [hg_nb, rebuildRow_nb_peak, countLabel_detectedPeaks]
  rintro s' (rfl | rfl)
  · exact key
  · exact key

theorem C9_downstream_reset_witness :
    ∃ s' : CCState, (s' = run_signalprocessor emptyState [(5, 0)] ∨
        s' = re_detect_peak emptyState [(5, 0)]) ∧
      (s'.some_peaks_index = none ∧ s'.some_waveforms = none ∧
        s'.some_features = none ∧ s'.channel_to_features = none ∧
        s'.some_noise_index = none ∧ s'.some_noise_snippet = none ∧
        s'.some_noise_features = none ∧
        s'.spike_waveforms_similarity = none ∧
        s'.cluster_similarity = none ∧ s'.cluster_ratio_similarity = none ∧
        s'.spike_silhouette = none ∧
        s'.all_peaks = some (detectedPeaks [(5, 0)]) ∧
        ∃ c : ClusterRow, s'.clusters = some [c] ∧
          c.cluster_label = LABEL_UNCLASSIFIED ∧
          c.nb_peak = [((5 : Int), (0 : Int))].length) :=
  ⟨run_signalprocessor emptyState [(5, 0)], Or.inl rfl,
    C9_downstream_reset emptyState [(5, 0)] (by decide)
      _ (Or.inl rfl)⟩

/-- The `cluster_labels` property (lines 130-135): the `cluster_label`
column when the cluster table exists, else an empty array. -/
def cluster_labels (s : CCState) : List Int :=
  match s.clusters with
  | some cl => cl.map (fun c => c.cluster_label)
  | none => []


/-- The per-peak relabelling of one `trash_small_cluster` pass: a peak
carrying `k` is forced to the literal `-1` the source writes. -/
def trashRelabel (k : Int) (p : Peak) : Peak :=
  if p.label = k then { p with label := -1 } else p

/-- One iteration of the `trash_small_cluster` loop (lines 726-729) for a
cluster label `k`: when at most `n` peaks currently carry `k`, all of them
are relabelled to `-1`. -/
def trashPass (n : Nat) (ps : List Peak) (k : Int) : List Peak :=
  if countLabel ps k ≤ n then ps.map (trashRelabel k) else ps

/-- Embedding of `trash_small_cluster` (lines 725-730): iterate the trash
pass over the cluster-table labels in table order, then rebuild. The
absent-peak-table case (where the Python loop body would raise) is not
exercised by any claim and returns the state unchanged. -/
def trash_small_cluster (s : CCState) (n : Nat) : CCState :=
  match s.all_peaks with
  | none => s
  | some ps =>
      on_new_cluster { s with
        all_peaks := some ((cluster_labels s).foldl (trashPass n) ps) }

theorem on_new_cluster_all_peaks (s : CCState) :
    (on_new_cluster s).all_peaks = s.all_peaks := by
  rcases on_new_cluster_frame s with h | ⟨cl, h⟩ <;> rw [h]

theorem trashRelabel_label (k : Int) (p : Peak) :
    (trashRelabel k p).label = if p.label = k then -1 else p.label := by
  unfold trashRelabel
  split <;> rfl

theorem countLabel_trashPass_other {k k' : Int} (hk : k ≠ -1) (hkk : k ≠ k')
    (n : Nat) (ps : List Peak) :
    countLabel (trashPass n ps k') k = countLabel ps k := by
  unfold trashPass
  split
  · unfold countLabel
    rw [List.countP_map]
    apply List.countP_congr
    intro p _
    simp only [Function.comp_apply, trashRelabel_label]
    by_cases h : p.label = k'
    · rw [if_pos h]
      simp only [decide_eq_true_eq]
      exact iff_of_false (fun hcon => hk hcon.symm)
        (fun hcon => hkk ((h.symm.trans hcon).symm))
    · rw [if_neg h]
  · rfl

theorem countLabel_trashPass_le {k : Int} (hk : k ≠ -1) (n : Nat)
    (ps : List Peak) (k' : Int) :
    countLabel (trashPass n ps k') k ≤ countLabel ps k := by
  unfold trashPass
  split
  · unfold countLabel
    rw [List.countP_map]
    apply List.countP_mono_left
    intro p _ hp
    simp only [Function.comp_apply, trashRelabel_label] at hp
    by_cases h : p.label = k'
    · rw [if_pos h] at hp
      exact absurd (of_decide_eq_true hp) (fun hcon => hk hcon.symm)
    · rwa [if_neg h] at hp
  · exact le_refl _

theorem countLabel_trashPass_self {k : Int} (hk : k ≠ -1) {n : Nat}
    {ps : List Peak} (hle : countLabel ps k ≤ n) :
    countLabel (trashPass n ps k) k = 0 := by
  unfold trashPass
  rw [if_pos hle]
  unfold countLabel
  rw [List.countP_map, List.countP_eq_zero]
  intro p _
  simp only [Function.comp_apply, trashRelabel_label]
  by_cases h : p.label = k
  · rw [if_pos h]
    simp only [decide_eq_true_eq]
    exact fun hcon => hk hcon.symm
  · rw [if_neg h]
    simp only [decide_eq_true_eq]
    exact h

theorem foldl_trashPass_zero {k : Int} (hk : k ≠ -1) (n : Nat) :
    ∀ (ls : List Int) (ps : List Peak), countLabel ps k = 0 →
      countLabel (ls.foldl (trashPass n) ps) k = 0 := by
  intro ls
  induction ls with
  | nil => intro ps h; exact h
  | cons k' ls ih =>
      intro ps h
      apply ih
      have := countLabel_trashPass_le hk n ps k'
      omega

theorem foldl_trashPass_mem {k : Int} (hk : k ≠ -1) (n : Nat) :
    ∀ (ls : List Int) (ps : List Peak), k ∈ ls → countLabel ps k ≤ n →
      countLabel (ls.foldl (trashPass n) ps) k = 0 := by
  intro ls
  induction ls with
  | nil => intro ps h; simp at h
  | cons k' ls ih =>
      intro ps hmem hle
      by_cases hkk : k = k'
      · subst hkk
        show countLabel (ls.foldl (trashPass n) (trashPass n ps k)) k = 0
        exact foldl_trashPass_zero hk n ls _
          (countLabel_trashPass_self hk hle)
      · have hmem' : k ∈ ls := by
          rcases List.mem_cons.mp hmem with h | h
          · exact absurd h hkk
          · exact h
        show countLabel (ls.foldl (trashPass n) (trashPass n ps k')) k = 0
        apply ih _ hmem'
        rw [countLabel_trashPass_other hk hkk]
        exact hle

/-- Transitivity of the per-peak label evolution relation: a label that is
kept or forced to -1 at each step is, overall, kept or forced to -1. -/
theorem forall₂_label_trans {ps qs rs : List Peak}
    (h1 : List.Forall₂ (fun p q => q.label = p.label ∨ q.label = -1) ps qs)
    (h2 : List.Forall₂ (fun p q => q.label = p.label ∨ q.label = -1) qs rs) :
    List.Forall₂ (fun p q => q.label = p.label ∨ q.label = -1) ps rs := by
  induction h1 generalizing rs with
  | nil =>
      cases h2
      exact List.Forall₂.nil
  | cons hpq h1' ih =>
      cases h2 with
      | cons hqr h2' =>
          refine List.Forall₂.cons ?_ (ih h2')
          rcases hqr with h' | h'
          · rcases hpq with h | h
            · exact Or.inl (h'.trans h)
            · exact Or.inr (h'.trans h)
          · exact Or.inr h'

theorem trashPass_label_evolution (n : Nat) (ps : List Peak) (k : Int) :
    List.Forall₂ (fun p q => q.label = p.label ∨ q.label = -1) ps
      (trashPass n ps k) := by
  unfold trashPass
  split
  · rw [List.forall₂_map_right_iff, List.forall₂_same]
    intro p _
    rw [trashRelabel_label]
    by_cases h : p.label = k
    · rw [if_pos h]
      right
      rfl
    · rw [if_neg h]
      left
      rfl
  · rw [List.forall₂_same]
    intro p _
    left
    rfl

theorem foldl_trashPass_label_evolution (n : Nat) :
    ∀ (ls : List Int) (ps : List Peak),
      List.Forall₂ (fun p q => q.label = p.label ∨ q.label = -1) ps
        (ls.foldl (trashPass n) ps) := by
  intro ls
  induction ls with
  | nil =>
      intro ps
      simp only [List.foldl_nil]
      rw [List.forall₂_same]
      intro p _
      left
      rfl
  | cons k ls ih =>
      intro ps
      exact forall₂_label_trans (trashPass_label_evolution n ps k) (ih _)

/-- State exercising `trash_small_cluster` on a table whose only cluster
carries the reserved label -1 with one member peak. -/
def trashTrashState : CCState :=
  { emptyState with
    all_peaks := some [⟨0, -1, 0⟩],
    clusters := some [⟨-1, -1, -1, none, none, 1⟩] }

/-- C6: the claim as frozen fails on the code. `trash_small_cluster`
forces undersized clusters' peaks to the literal `-1`; a cluster whose
label is itself `-1` and whose size is at most `n` therefore keeps all its
peaks, so "no peak carries that cluster's label any more" is false for it.
Here the single cluster has label -1 with `nb_peak = 1 <= 10`, yet after
the call one peak still carries label -1. -/
theorem C6_trash_small_counterexample :
    ∃ c ∈ trashTrashState.clusters.getD [],
      c.nb_peak ≤ 10 ∧
      countLabel ((trash_small_cluster trashTrashState 10).all_peaks.getD [])
        c.cluster_label = 1 := by
  refine ⟨⟨-1, -1, -1, none, none, 1⟩, ?_, ?_, ?_⟩
  · decide
  · decide
  · decide

instance : Inhabited Peak := ⟨⟨0, 0, 0⟩⟩

theorem getD_mem {α : Type} (l : List α) (d : α) (i : Nat)
    (hi : i < l.length) : l.getD i d ∈ l := by
  rw [List.getD_eq_getElem l d hi]
  exact List.getElem_mem hi


theorem forall₂_getD {α β : Type} (R : α → β → Prop) :
    ∀ (l1 : List α) (l2 : List β), List.Forall₂ R l1 l2 →
      ∀ (i : Nat) (d1 : α) (d2 : β), i < l1.length →
        R (l1.getD i d1) (l2.getD i d2) := by
  intro l1
  induction l1 with
  | nil =>
      intro l2 h i d1 d2 hi
      simp at hi
  | cons x xs ih =>
      intro l2 h i d1 d2 hi
      cases h with
      | cons hxy htail =>
          cases i with
          | zero =>
              rw [List.getD_cons_zero, List.getD_cons_zero]
              exact hxy
          | succ t =>
              rw [List.getD_cons_succ, List.getD_cons_succ]
              exact ih _ htail t d1 d2 (by simpa using Nat.lt_of_succ_lt_succ hi)

/-- C6 amended, changed only as the counterexample forces: after
`trash_small_cluster(n)`, for every cluster whose label differs from `-1`
— the literal reserved code the source writes at line 729 (the spec names
the forced code "unclassified"; `labelcodes.py` is not under src/, so
which name `-1` carries is not decidable from the available source) — and
whose `nb_peak` was at most `n` before the call, no peak carries that
cluster's label any more: all its member peaks' labels have been forced
to `-1`, and a Rebuild has been performed on the relabelled peak table.
A cluster already labelled `-1` keeps its peaks (the counterexample). -/
theorem C6_trash_small_amended (s : CCState) (ps : List Peak)
    (cl : List ClusterRow) (hp : s.all_peaks = some ps)
    (hc : s.clusters = some cl) (n : Nat)
    (hcons : ∀ c ∈ cl, c.nb_peak = countLabel ps c.cluster_label) :
    ∃ ps', (trash_small_cluster s n).all_peaks = some ps' ∧
      trash_small_cluster s n
        = on_new_cluster { s with all_peaks := some ps' } ∧
      ∀ c ∈ cl, c.cluster_label ≠ -1 → c.nb_peak ≤ n →
        countLabel ps' c.cluster_label = 0 ∧
        ∀ i, i < ps.length →
          (ps.getD i default).label = c.cluster_label →
          (ps'.getD i default).label = -1 := by
  have hunfold : trash_small_cluster s n
      = on_new_cluster { s with all_peaks := some ((cluster_labels s).foldl (trashPass n) ps) } := by
    unfold trash_small_cluster
    rw [hp]
  have hfa := foldl_trashPass_label_evolution n (cluster_labels s) ps
  refine ⟨(cluster_labels s).foldl (trashPass n) ps, ?_, hunfold, ?_⟩
  · rw [hunfold, on_new_cluster_all_peaks]
  · intro c hmem hne hle
    have hkmem : c.cluster_label ∈ cluster_labels s := by
      unfold cluster_labels
      rw [hc]
      exact List.mem_map.mpr ⟨c, hmem, rfl⟩
    have h0 : countLabel ((cluster_labels s).foldl (trashPass n) ps)
        c.cluster_label = 0 := by
      apply foldl_trashPass_mem hne n _ ps hkmem
      rw [← hcons c hmem]
      exact hle
    refine ⟨h0, ?_⟩
    intro i hi hlab
    have hR := forall₂_getD _ ps _ hfa i default default hi
    rcases hR with h | h
    · exfalso
      have hlen : ps.length
          = ((cluster_labels s).foldl (trashPass n) ps).length :=
        hfa.length_eq
      have hmem' : ((cluster_labels s).foldl (trashPass n) ps).getD i default
          ∈ (cluster_labels s).foldl (trashPass n) ps :=
        getD_mem _ default i (by omega)
      unfold countLabel at h0
      have hnot := (List.countP_eq_zero.mp h0) _ hmem'
      apply hnot
      simp only [decide_eq_true_eq]
      rw [h, hlab]
    · exact h

/-- State with one undersized cluster (label 7, one peak) and one
sufficiently populated cluster (label 3, two peaks). -/
def trashDemoState : CCState :=
  { emptyState with
    all_peaks := some [⟨0, 3, 0⟩, ⟨1, 3, 0⟩, ⟨2, 7, 0⟩],
    clusters := some [⟨3, 3, -1, none, none, 2⟩, ⟨7, 7, -1, none, none, 1⟩] }

theorem C6_trash_small_amended_witness :
    ∃ ps', (trash_small_cluster trashDemoState 1).all_peaks = some ps' ∧
      trash_small_cluster trashDemoState 1
        = on_new_cluster { trashDemoState with all_peaks := some ps' } ∧
      ∀ c ∈ [ClusterRow.mk 3 3 (-1) none none 2,
          ClusterRow.mk 7 7 (-1) none none 1],
        c.cluster_label ≠ -1 → c.nb_peak ≤ 1 →
        countLabel ps' c.cluster_label = 0 ∧
        ∀ i, i < ([⟨0, 3, 0⟩, ⟨1, 3, 0⟩, ⟨2, 7, 0⟩] : List Peak).length →
          (([⟨0, 3, 0⟩, ⟨1, 3, 0⟩, ⟨2, 7, 0⟩] : List Peak).getD i
              default).label = c.cluster_label →
          (ps'.getD i default).label = -1 :=
  C6_trash_small_amended trashDemoState [⟨0, 3, 0⟩, ⟨1, 3, 0⟩, ⟨2, 7, 0⟩]
    [⟨3, 3, -1, none, none, 2⟩, ⟨7, 7, -1, none, none, 1⟩]
    rfl rfl 1 (by decide)

/-- Eligibility mask of `extract_some_noise` (lines 555-561): all ones,
then the first and last `peak_width` samples are cleared (`possibles[:pw]`
and `possibles[-pw:]`; for `pw = 0` the numpy slice `[-0:]` is the whole
array, clearing everything). The subsequent `for peak in peaks:` loop body
is the bare expression `possibles[peak['index']+n_left-n_right :
peak['index']+n_right-n_left]` — a slice that is computed and discarded,
never assigned — so the mask is independent of the peaks; the fold below
carries it through the loop unchanged. -/
def noisePossibles (length pw : Nat) (peakIdxs : List Int) : List Bool :=
  let base := (List.range length).map (fun i =>
    if pw = 0 then false else decide (pw ≤ i ∧ i + pw < length))
  peakIdxs.foldl (fun m _ => m) base

/-- Snippet/peak waveform windows: the window read at index `i` is
`[i + n_left, i + n_left + pw)` (lines 580-582, identical to the peak
window of `extract_some_waveforms`, lines 406-407). -/
def windows_overlap (n_left pw i p : Int) : Prop :=
  ∃ x, i + n_left ≤ x ∧ x < i + n_left + pw ∧
    p + n_left ≤ x ∧ x < p + n_left + pw

theorem foldl_const {α β : Type} (b : α) (l : List β) :
    l.foldl (fun m _ => m) b = b := by
  induction l with
  | nil => rfl
  | cons x xs ih => exact ih

/-- C2: the peak-exclusion step of `extract_some_noise` is a no-op, so the
eligibility mask ignores the detected peaks entirely and a noise snippet
can be drawn on top of a peak. With window `n_left = -5, n_right = 5`
(width 10) on a segment of length 100 holding one peak at sample 50, the
mask still allows index 50, whose snippet window overlaps (indeed equals)
the peak's waveform window — contradicting the method's own docstring
"Find some snipet of signal that are not overlap with peak waveforms". -/
theorem C2_noise_mask_ignores_peaks :
    (∀ peakIdxs : List Int,
      noisePossibles 100 10 peakIdxs = noisePossibles 100 10 []) ∧
    (noisePossibles 100 10 [50]).getD 50 false = true ∧
    windows_overlap (-5) 10 50 50 := by
  refine ⟨?_, ?_, ?_⟩
  · intro peakIdxs
    unfold noisePossibles
    rw [foldl_const, foldl_const]
  · decide
  · exact ⟨45, by omega, by omega, by omega, by omega⟩

/-- Length computation of `estimate_signals_noise` (lines 212-213):
`length = int(duration*sample_rate)` truncated down to a whole number of
chunks. The float product `duration*sample_rate` is abstracted by its
integer truncation `length0`. -/
def estimate_noise_length (length0 chunksize : Nat) : Nat :=
  length0 - length0 % chunksize

/-- Precondition check of `estimate_signals_noise` (line 215):
`assert length < self.dataio.get_segment_length(seg_num)`. Returns `true`
when the call proceeds and `false` when the assert aborts it. -/
def estimate_noise_ok (length0 chunksize seg_length : Nat) : Bool :=
  decide (estimate_noise_length length0 chunksize < seg_length)

/-- C8: the claim as frozen fails on the code in both directions (shown
with sample_rate = 1, where the requested duration in samples equals
`length0`). First: a requested duration of 10 samples on a segment of
exactly 10 samples does not exceed the available length, yet the strict
`<` assert fires. Second: a requested duration of 15 samples on a
10-sample segment exceeds it, yet chunk truncation (chunksize 8) yields
8 < 10 and the call proceeds. -/
theorem C8_duration_check_counterexample :
    (estimate_noise_ok 10 5 10 = false ∧ 10 ≤ 10) ∧
    (estimate_noise_ok 15 8 10 = true ∧ 10 < 15) := by
  decide

/-- C8 amended: `estimate_signals_noise` proceeds precisely when the
requested length truncated down to a whole number of chunks,
`chunksize * (length0 / chunksize)`, is strictly below the segment's
available length — so it can abort with the duration equal to the
available length, and proceed with the duration exceeding it. -/
theorem C8_duration_check_amended (length0 chunksize seg_length : Nat) :
    estimate_noise_ok length0 chunksize seg_length = true ↔
      chunksize * (length0 / chunksize) < seg_length := by
  unfold estimate_noise_ok estimate_noise_length
  rw [decide_eq_true_iff]
  have h2 : length0 % chunksize + chunksize * (length0 / chunksize)
      = length0 := Nat.mod_add_div length0 chunksize
  omega

/-- Noise index records persisted by `extract_some_noise` (lines 549-567):
`nb_snippet // nb_segment` records per segment, each holding a drawn
position, the reserved noise label, and its segment number. The function
`pick` abstracts `possible_indexes[np.sort(np.random.choice(...))]`, the
randomly drawn position for the j-th record of a segment. -/
def extract_some_noise_index (nb_snippet nb_segment : Nat)
    (pick : Nat → Nat → Int) : List Peak :=
  (List.range nb_segment).flatMap (fun seg =>
    (List.range (nb_snippet / nb_segment)).map (fun j =>
      ⟨pick seg j, LABEL_NOISE, (seg : Int)⟩))

theorem filter_flatMap_seg (seg : Nat) (f : Nat → List Peak)
    (hseg : ∀ s', ∀ r ∈ f s', r.segment = (s' : Int)) :
    ∀ segs : List Nat, segs.Nodup → seg ∈ segs →
    ((segs.flatMap f).filter
        (fun r => decide (r.segment = (seg : Int)))).length
      = (f seg).length := by
  intro segs
  induction segs with
  | nil => intro _ h; simp at h
  | cons s' segs ih =>
      intro hnd hmem
      rw [List.nodup_cons] at hnd
      rw [List.flatMap_cons, List.filter_append, List.length_append]
      by_cases h : s' = seg
      · subst h
        have hall : (f s').filter (fun r => decide (r.segment = (s' : Int)))
            = f s' := by
          rw [List.filter_eq_self]
          intro r hr
          simp [hseg s' r hr]
        have hrest : ((segs.flatMap f).filter
            (fun r => decide (r.segment = (s' : Int)))) = [] := by
          rw [List.filter_eq_nil_iff]
          intro r hr
          obtain ⟨s'', hs'', hrs⟩ := List.mem_flatMap.mp hr
          rw [hseg s'' r hrs]
          simp only [decide_eq_true_eq]
          intro hcast
          have : s'' = s' := by exact_mod_cast hcast
          exact hnd.1 (this ▸ hs'')
        rw [hall, hrest]
        simp
      · have hmem' : seg ∈ segs := by
          rcases List.mem_cons.mp hmem with hcon | hm
          · exact absurd hcon.symm h
          · exact hm
        have hcur : ((f s').filter
            (fun r => decide (r.segment = (seg : Int)))) = [] := by
          rw [List.filter_eq_nil_iff]
          intro r hr
          rw [hseg s' r hr]
          simp only [decide_eq_true_eq]
          intro hcast
          exact h (by exact_mod_cast hcast)
        rw [hcur, ih hnd.2 hmem']
        simp

/-- C10: `extract_some_noise(nb_snippet)` on `S >= 1` segments persists
exactly `(nb_snippet // S) * S` noise index records (and as many
snippets, the snippet array's first dimension being the index count) —
strictly fewer than `nb_snippet` whenever `S` does not divide it — and
every record carries the reserved noise label and its segment number
(`nb_snippet // S` records per segment). -/
theorem C10_noise_record_count (nb S : Nat) (hS : 1 ≤ S)
    (pick : Nat → Nat → Int) :
    ((extract_some_noise_index nb S pick).length = (nb / S) * S) ∧
    (¬ (S ∣ nb) → (extract_some_noise_index nb S pick).length < nb) ∧
    (∀ r ∈ extract_some_noise_index nb S pick,
      r.label = LABEL_NOISE ∧ 0 ≤ r.segment ∧ r.segment < (S : Int)) ∧
    (∀ seg : Nat, seg < S →
      ((extract_some_noise_index nb S pick).filter
        (fun r => decide (r.segment = (seg : Int)))).length = nb / S) := by
  have hlen : (extract_some_noise_index nb S pick).length = (nb / S) * S := by
    unfold extract_some_noise_index
    rw [List.length_flatMap]
    have hmap : (List.range S).map
        (List.length ∘ fun seg => (List.range (nb / S)).map
          (fun j => (⟨pick seg j, LABEL_NOISE, (seg : Int)⟩ : Peak)))
        = List.replicate S (nb / S) := by
      rw [List.eq_replicate_iff]
      refine ⟨by simp, ?_⟩
      intro b hb
      obtain ⟨seg, _, hsegb⟩ := List.mem_map.mp hb
      rw [← hsegb]
      simp
    rw [hmap, List.sum_replicate, smul_eq_mul, Nat.mul_comm]
  refine ⟨hlen, ?_, ?_, ?_⟩
  · intro hdvd
    rw [hlen]
    have h2 : S * (nb / S) + nb % S = nb := Nat.div_add_mod nb S
    have h3 : nb % S ≠ 0 := fun hcon =>
      hdvd (Nat.dvd_of_mod_eq_zero hcon)
    have h4 : (nb / S) * S = S * (nb / S) := Nat.mul_comm _ _
    omega
  · intro r hr
    obtain ⟨seg, hseg, hrs⟩ := List.mem_flatMap.mp hr
    obtain ⟨j, _, hrj⟩ := List.mem_map.mp hrs
    rw [← hrj]
    refine ⟨rfl, by positivity, ?_⟩
    have hlt : seg < S := List.mem_range.mp hseg
    show (seg : Int) < (S : Int)
    exact_mod_cast hlt
  · intro seg hseg
    unfold extract_some_noise_index
    rw [filter_flatMap_seg seg _ ?_ (List.range S) (List.nodup_range S)
      (List.mem_range.mpr hseg)]
    · simp
    · intro s' r hr
      obtain ⟨j, _, hrj⟩ := List.mem_map.mp hr
      rw [← hrj]

theorem C10_noise_record_count_witness :
    (((extract_some_noise_index 7 3 (fun _ _ => 0)).length = (7 / 3) * 3) ∧
    (¬ ((3 : Nat) ∣ 7) →
      (extract_some_noise_index 7 3 (fun _ _ => 0)).length < 7) ∧
    (∀ r ∈ extract_some_noise_index 7 3 (fun _ _ => 0),
      r.label = LABEL_NOISE ∧ 0 ≤ r.segment ∧ r.segment < ((3 : Nat) : Int)) ∧
    (∀ seg : Nat, seg < 3 →
      ((extract_some_noise_index 7 3 (fun _ _ => 0)).filter
        (fun r => decide (r.segment = (seg : Int)))).length = 7 / 3)) :=
  C10_noise_record_count 7 3 (by decide) (fun _ _ => 0)

instance : Inhabited ClusterRow := ⟨⟨0, 0, 0, none, none, 0⟩⟩

/-- Sort key selector of `order_clusters` (lines 873-878): the rms column
or the absolute amplitude column. A nan (unset) value sorts last in
numpy's ascending `argsort`, hence first after the `[::-1]` reversal: it
is the largest key, `⊤`. -/
inductive OrderBy where
  | waveforms_rms : OrderBy
  | max_peak_amplitude : OrderBy

def orderKey : OrderBy → ClusterRow → WithTop ℚ
  | .waveforms_rms, c =>
      match c.waveform_rms with
      | none => ⊤
      | some q => (q : WithTop ℚ)
  | .max_peak_amplitude, c =>
      match c.max_peak_amplitude with
      | none => ⊤
      | some q => ((|q| : ℚ) : WithTop ℚ)

/-- The negative-label rows of the cluster table, in table order
(`clusters[clusters['cluster_label'] < 0]`). -/
def negClusters (cl : List ClusterRow) : List ClusterRow :=
  cl.filter (fun c => decide (c.cluster_label < 0))

/-- The non-negative-label rows of the cluster table, in table order
(`clusters[clusters['cluster_label'] >= 0]`). -/
def posClusters (cl : List ClusterRow) : List ClusterRow :=
  cl.filter (fun c => decide (0 ≤ c.cluster_label))

/-- The non-negative rows sorted descending by the chosen key
(`np.argsort(...)[::-1]`; tie order is not claim-relevant and may differ
from numpy's reversed-stable order). -/
def sortedPos (by_ : OrderBy) (cl : List ClusterRow) : List ClusterRow :=
  (posClusters cl).mergeSort
    (fun a b => decide (orderKey by_ b ≤ orderKey by_ a))

/-- Embedding of Python `max()` over a list of ints: `none` on the empty
list (where Python raises ValueError). -/
def listMax : List Int → Option Int
  | [] => none
  | x :: xs => some (xs.foldl max x)

/-- The enumerated offset label pairs `enumerate(sorted_labels + N)`. -/
def enumMap (i0 : Nat) (N : Int) : List Int → List (Nat × Int)
  | [] => []
  | x :: xs => (i0, x + N) :: enumMap (i0 + 1) N xs

/-- Sequential passes `for new, old in enumerate(sorted_labels+N):
all_peaks['label'][all_peaks['label']==old] = new` (lines 885-886). Each
pass is a pointwise conditional assignment over the whole label column, so
the loop acts pointwise on each label value. -/
def passes (pairs : List (Nat × Int)) (v : Int) : Int :=
  pairs.foldl (fun acc pr => if acc = pr.2 then (pr.1 : Int) else acc) v

/-- Two-phase collision-avoiding relabelling of one peak label (lines
883-886): non-negative labels are offset by `N` first, then the
enumeration passes map each offset old label to its new dense value. -/
def orderRelabel (sortedLabels : List Int) (N : Int) (v : Int) : Int :=
  passes (enumMap 0 N sortedLabels) (if 0 ≤ v then v + N else v)

/-- Reassignment `pos_clusters['cluster_label'] = np.arange(n)`
(line 890). -/
def reindexFrom (i0 : Nat) : List ClusterRow → List ClusterRow
  | [] => []
  | c :: cs => { c with cluster_label := (i0 : Int) } :: reindexFrom (i0 + 1) cs

/-- One iteration of the cell-label resolution loop (lines 894-898):
`k = cell[i]; inds = nonzero(cell == k); if inds[0] == i: cell[inds] = i`
(`len(inds) >= 1` always holds when `i` is in range). -/
def resolveStep (cells : List Int) (i : Nat) : List Int :=
  match cells.findIdx? (fun x => decide (x = cells.getD i 0)) with
  | some j =>
      if j = i then
        cells.map (fun x => if x = cells.getD i 0 then (i : Int) else x)
      else cells
  | none => cells

/-- The full cell-label resolution loop `for i in range(n)` over the
offset cell column. -/
def resolveCells (cells : List Int) : List Int :=
  (List.range cells.length).foldl resolveStep cells

/-- Writing the resolved cell column back into the reindexed rows. -/
def setCells : List ClusterRow → List Int → List ClusterRow
  | c :: cs, v :: vs => { c with cell_label := v } :: setCells cs vs
  | cs, [] => cs
  | [], _ :: _ => []

/-- Embedding of `order_clusters` (lines 858-900): split the table into
negative and non-negative rows, sort the latter descending by the chosen
key, offset-then-remap every non-negative peak label through the sorted
order, reassign dense cluster labels `0..n-1`, carry the cell labels
through the same offset and resolve each cell group to the first index
carrying it, and store back negatives-then-positives. The centroids are
assumed already computed (`compute_centroid` otherwise runs first, which
no claim exercises); an empty non-negative set makes Python's `max()`
raise, modelled as `none`. -/
def order_clusters (by_ : OrderBy) (s : CCState) : Option CCState :=
  match s.all_peaks, s.clusters with
  | some ps, some cl =>
      let sorted := sortedPos by_ cl
      let sortedLabels := sorted.map (fun c => c.cluster_label)
      match listMax sortedLabels with
      | none => none
      | some m =>
          let N := m * 10
          let ps' := ps.map (fun p =>
            { p with label := orderRelabel sortedLabels N p.label })
          let pos' := setCells (reindexFrom 0 sorted)
            (resolveCells (sorted.map (fun c => c.cell_label + N)))
          some { s with
            all_peaks := some ps',
            clusters := some (negClusters cl ++ pos') }
  | _, _ => none

theorem passes_skip (pairs : List (Nat × Int)) (v : Int)
    (h : ∀ pr ∈ pairs, v ≠ pr.2) : passes pairs v = v := by
  induction pairs with
  | nil => rfl
  | cons pr rest ih =>
      show passes rest (if v = pr.2 then (pr.1 : Int) else v) = v
      rw [if_neg (h pr (List.mem_cons_self pr rest))]
      exact ih (fun q hq => h q (List.mem_cons_of_mem pr hq))

theorem passes_enumMap_skip (N v : Int) :
    ∀ (l : List Int) (i0 : Nat), (∀ w ∈ l, v ≠ w + N) →
      passes (enumMap i0 N l) v = v := by
  intro l
  induction l with
  | nil => intro i0 _; rfl
  | cons x xs ih =>
      intro i0 h
      show passes (enumMap (i0 + 1) N xs)
        (if v = x + N then ((i0 : Nat) : Int) else v) = v
      rw [if_neg (h x (List.mem_cons_self x xs))]
      exact ih (i0 + 1) (fun w hw => h w (List.mem_cons_of_mem x hw))

theorem passes_enumMap_get (N : Int) :
    ∀ (l : List Int) (i0 : Nat), l.Nodup →
      (∀ a t, a < t → t < l.length → ((i0 + a : Nat) : Int) ≠ l.getD t 0 + N) →
      ∀ j, j < l.length →
        passes (enumMap i0 N l) (l.getD j 0 + N) = ((i0 + j : Nat) : Int) := by
  intro l
  induction l with
  | nil =>
      intro i0 _ _ j hj
      simp at hj
  | cons x xs ih =>
      intro i0 hnd hlate j hj
      rw [List.nodup_cons] at hnd
      cases j with
      | zero =>
          show passes (enumMap (i0 + 1) N xs)
            (if (x :: xs).getD 0 0 + N = x + N then ((i0 : Nat) : Int)
              else (x :: xs).getD 0 0 + N) = _
          rw [if_pos (by rw [List.getD_cons_zero])]
          rw [passes_enumMap_skip]
          · simp
          · intro w hw
            obtain ⟨t, ht, hwt⟩ := List.mem_iff_getElem.mp hw
            have hx := hlate 0 (t + 1) (Nat.succ_pos t)
              (by simpa using Nat.succ_lt_succ ht)
            rw [List.getD_cons_succ] at hx
            rw [List.getD_eq_getElem xs 0 ht, hwt] at hx
            simpa using hx
      | succ t =>
          have hts : t < xs.length := by simpa using Nat.lt_of_succ_lt_succ hj
          show passes (enumMap (i0 + 1) N xs)
            (if (x :: xs).getD (t + 1) 0 + N = x + N then ((i0 : Nat) : Int)
              else (x :: xs).getD (t + 1) 0 + N) = _
          rw [List.getD_cons_succ]
          have hne : xs.getD t 0 + N ≠ x + N := by
            intro hcon
            have hxeq : xs.getD t 0 = x := by omega
            apply hnd.1
            rw [← hxeq]
            rw [List.getD_eq_getElem xs 0 hts]
            exact List.getElem_mem hts
          rw [if_neg hne]
          have := ih (i0 + 1) hnd.2 ?_ t hts
          · rw [this]
            congr 1
            omega
          · intro a t' ha ht'
            have hx := hlate (a + 1) (t' + 1) (Nat.succ_lt_succ ha)
              (by simpa using Nat.succ_lt_succ ht')
            rw [List.getD_cons_succ] at hx
            have : i0 + (a + 1) = i0 + 1 + a := by omega
            rwa [this] at hx

theorem foldl_max_mem : ∀ (xs : List Int) (x : Int),
    xs.foldl max x ∈ x :: xs := by
  intro xs
  induction xs with
  | nil => intro x; simp
  | cons y ys ih =>
      intro x
      have h := ih (max x y)
      show ys.foldl max (max x y) ∈ x :: y :: ys
      rcases List.mem_cons.mp h with h | h
      · rcases max_choice x y with hm | hm
        · rw [h, hm]
          exact List.mem_cons_self _ _
        · rw [h, hm]
          exact List.mem_cons_of_mem _ (List.mem_cons_self _ _)
      · exact List.mem_cons_of_mem _ (List.mem_cons_of_mem _ h)

theorem foldl_max_le : ∀ (xs : List Int) (x : Int),
    ∀ w ∈ x :: xs, w ≤ xs.foldl max x := by
  intro xs
  induction xs with
  | nil =>
      intro x w hw
      rcases List.mem_cons.mp hw with h | h
      · exact le_of_eq h
      · simp at h
  | cons y ys ih =>
      intro x w hw
      show w ≤ ys.foldl max (max x y)
      rcases List.mem_cons.mp hw with h | h
      · subst h
        exact le_trans (le_max_left w y)
          (ih (max w y) _ (List.mem_cons_self _ _))
      · rcases List.mem_cons.mp h with h | h
        · subst h
          exact le_trans (le_max_right x w)
            (ih (max x w) _ (List.mem_cons_self _ _))
        · exact ih (max x y) w (List.mem_cons_of_mem _ h)

theorem listMax_mem {l : List Int} {m : Int} (h : listMax l = some m) :
    m ∈ l := by
  cases l with
  | nil => simp [listMax] at h
  | cons x xs =>
      simp only [listMax, Option.some_inj] at h
      subst h
      exact foldl_max_mem xs x

theorem listMax_le {l : List Int} {m : Int} (h : listMax l = some m) :
    ∀ w ∈ l, w ≤ m := by
  cases l with
  | nil => simp [listMax] at h
  | cons x xs =>
      simp only [listMax, Option.some_inj] at h
      subst h
      exact foldl_max_le xs x

theorem listMax_isSome {l : List Int} (h : l ≠ []) :
    ∃ m, listMax l = some m := by
  cases l with
  | nil => exact absurd rfl h
  | cons x xs => exact ⟨xs.foldl max x, rfl⟩

/-- Pigeonhole: a duplicate-free list of integers within `[0, m]` has at
most `m + 1` elements. -/
theorem length_le_of_nodup_bounded (sl : List Int) (hnd : sl.Nodup)
    (m : Int) (hm : 0 ≤ m) (hb : ∀ x ∈ sl, 0 ≤ x ∧ x ≤ m) :
    (sl.length : Int) ≤ m + 1 := by
  have hsub : sl.toFinset ⊆ Finset.Icc (0 : Int) m := by
    intro x hx
    rw [List.mem_toFinset] at hx
    rw [Finset.mem_Icc]
    exact hb x hx
  have hcard := Finset.card_le_card hsub
  rw [List.toFinset_card_of_nodup hnd, Int.card_Icc] at hcard
  omega

theorem getD_map_lt {α β : Type} (l : List α) (f : α → β) (a : Nat)
    (ha : a < l.length) (d : β) (d' : α) :
    (l.map f).getD a d = f (l.getD a d') := by
  rw [List.getD_eq_getElem _ d (by simpa using ha), List.getElem_map,
    List.getD_eq_getElem _ d' ha]

theorem orderRelabel_neg (sl : List Int) (N v : Int)
    (hnn : ∀ k ∈ sl, 0 ≤ k) (hN : 0 ≤ N) (hv : v < 0) :
    orderRelabel sl N v = v := by
  unfold orderRelabel
  rw [if_neg (by omega)]
  apply passes_enumMap_skip
  intro w hw
  have := hnn w hw
  omega

theorem orderRelabel_getD (sl : List Int) (N : Int) (hnd : sl.Nodup)
    (hnn : ∀ k ∈ sl, 0 ≤ k)
    (hlate : ∀ a t, a < t → t < sl.length →
      ((a : Nat) : Int) ≠ sl.getD t 0 + N)
    (j : Nat) (hj : j < sl.length) :
    orderRelabel sl N (sl.getD j 0) = (j : Int) := by
  unfold orderRelabel
  rw [if_pos (hnn _ (getD_mem sl 0 j hj))]
  have h := passes_enumMap_get N sl 0 hnd ?_ j hj
  · simpa using h
  · intro a t ha ht
    have := hlate a t ha ht
    simpa using this

/-- The offset `N = 10 * max(sorted_labels)` chosen by the source keeps
the new dense labels `0..n-1` disjoint from every not-yet-remapped offset
label. -/
theorem hlate_of_listMax (sl : List Int) (hnd : sl.Nodup)
    (hnn : ∀ k ∈ sl, 0 ≤ k) (m : Int) (hmax : listMax sl = some m) :
    ∀ a t, a < t → t < sl.length →
      ((a : Nat) : Int) ≠ sl.getD t 0 + m * 10 := by
  intro a t hat ht
  have hm0 : 0 ≤ m := hnn m (listMax_mem hmax)
  have hget0 : 0 ≤ sl.getD t 0 := hnn _ (getD_mem sl 0 t ht)
  have hcast1 : ((a : Nat) : Int) < ((t : Nat) : Int) := by exact_mod_cast hat
  have hcast2 : ((t : Nat) : Int) < ((sl.length : Nat) : Int) := by
    exact_mod_cast ht
  by_cases hm : m = 0
  · exfalso
    subst hm
    have hlen : (sl.length : Int) ≤ 0 + 1 :=
      length_le_of_nodup_bounded sl hnd 0 le_rfl
        (fun x hx => ⟨hnn x hx, listMax_le hmax x hx⟩)
    omega
  · have hlen : (sl.length : Int) ≤ m + 1 :=
      length_le_of_nodup_bounded sl hnd m hm0
        (fun x hx => ⟨hnn x hx, listMax_le hmax x hx⟩)
    omega

theorem orderRelabel_eq_iff (sl : List Int) (N : Int) (hnd : sl.Nodup)
    (hnn : ∀ k ∈ sl, 0 ≤ k)
    (hlate : ∀ a t, a < t → t < sl.length →
      ((a : Nat) : Int) ≠ sl.getD t 0 + N)
    (hN : 0 ≤ N) (v : Int) (hv : v < 0 ∨ v ∈ sl) (i : Nat)
    (hi : i < sl.length) :
    (orderRelabel sl N v = (i : Int)) ↔ v = sl.getD i 0 := by
  rcases hv with hv | hv
  · rw [orderRelabel_neg sl N v hnn hN hv]
    have hi0 : (0 : Int) ≤ (i : Int) := Int.natCast_nonneg i
    have hgi : 0 ≤ sl.getD i 0 := hnn _ (getD_mem sl 0 i hi)
    constructor
    · intro h
      exfalso
      omega
    · intro h
      exfalso
      omega
  · obtain ⟨j, hj, hgj⟩ := List.mem_iff_getElem.mp hv
    have hgetD : sl.getD j 0 = v := by
      rw [List.getD_eq_getElem sl 0 hj, hgj]
    rw [← hgetD, orderRelabel_getD sl N hnd hnn hlate j hj]
    constructor
    · intro h
      have hji : j = i := by exact_mod_cast h
      rw [hji]
    · intro h
      have hgeq : sl.get ⟨j, hj⟩ = sl.get ⟨i, hi⟩ := by
        have h1 : sl.get ⟨j, hj⟩ = sl.getD j 0 := by
          rw [List.getD_eq_getElem sl 0 hj]
          rfl
        have h2 : sl.get ⟨i, hi⟩ = sl.getD i 0 := by
          rw [List.getD_eq_getElem sl 0 hi]
          rfl
        rw [h1, h2, h]
      have hji : j = i := by
        have hfin := (List.Nodup.get_inj_iff hnd).mp hgeq
        exact congrArg Fin.val hfin
      exact congrArg _ hji

theorem countLabel_orderRelabel (sl : List Int) (N : Int) (hnd : sl.Nodup)
    (hnn : ∀ k ∈ sl, 0 ≤ k)
    (hlate : ∀ a t, a < t → t < sl.length →
      ((a : Nat) : Int) ≠ sl.getD t 0 + N)
    (hN : 0 ≤ N) (ps : List Peak)
    (hcov : ∀ p ∈ ps, 0 ≤ p.label → p.label ∈ sl) (i : Nat)
    (hi : i < sl.length) :
    countLabel (ps.map (fun p =>
        { p with label := orderRelabel sl N p.label })) (i : Int)
      = countLabel ps (sl.getD i 0) := by
  unfold countLabel
  rw [List.countP_map]
  apply List.countP_congr
  intro p hp
  simp only [Function.comp_apply, decide_eq_true_eq]
  have hv : p.label < 0 ∨ p.label ∈ sl := by
    by_cases h : 0 ≤ p.label
    · exact Or.inr (hcov p hp h)
    · exact Or.inl (by omega)
  exact orderRelabel_eq_iff sl N hnd hnn hlate hN p.label hv i hi

theorem map_getD_range {α : Type} (sl : List Int) (f : Int → α) :
    (List.range sl.length).map (fun i => f (sl.getD i 0)) = sl.map f := by
  apply List.ext_getElem
  · simp
  · intro i h1 h2
    simp only [List.getElem_map, List.getElem_range]
    rw [List.getD_eq_getElem sl 0 (by simpa using h2)]

theorem resolveStep_eq (cells : List Int) (i : Nat) :
    resolveStep cells i = cells ∨
      ∃ k, resolveStep cells i
        = cells.map (fun x => if x = k then (i : Int) else x) := by
  unfold resolveStep
  cases h : cells.findIdx? (fun x => decide (x = cells.getD i 0)) with
  | none => exact Or.inl rfl
  | some j =>
      dsimp only
      by_cases hj : j = i
      · right
        refine ⟨cells.getD i 0, ?_⟩
        rw [if_pos hj]
      · left
        rw [if_neg hj]

theorem resolveStep_length (cells : List Int) (i : Nat) :
    (resolveStep cells i).length = cells.length := by
  rcases resolveStep_eq cells i with h | ⟨k, h⟩ <;> rw [h]
  exact List.length_map cells _

theorem resolveStep_preserves (cells : List Int) (i : Nat) {a b : Nat}
    (ha : a < cells.length) (hb : b < cells.length)
    (h : cells.getD a 0 = cells.getD b 0) :
    (resolveStep cells i).getD a 0 = (resolveStep cells i).getD b 0 := by
  rcases resolveStep_eq cells i with heq | ⟨k, heq⟩ <;> rw [heq]
  · exact h
  · rw [getD_map_lt cells _ a ha 0 0, getD_map_lt cells _ b hb 0 0, h]

theorem foldl_resolveStep_length (l : List Nat) :
    ∀ cells : List Int, (l.foldl resolveStep cells).length = cells.length := by
  induction l with
  | nil => intro cells; rfl
  | cons i l ih =>
      intro cells
      show (l.foldl resolveStep (resolveStep cells i)).length = _
      rw [ih, resolveStep_length]

theorem foldl_resolveStep_preserves (l : List Nat) :
    ∀ (cells : List Int) (a b : Nat), a < cells.length → b < cells.length →
      cells.getD a 0 = cells.getD b 0 →
      (l.foldl resolveStep cells).getD a 0
        = (l.foldl resolveStep cells).getD b 0 := by
  induction l with
  | nil => intro cells a b _ _ h; exact h
  | cons i l ih =>
      intro cells a b ha hb h
      show (l.foldl resolveStep (resolveStep cells i)).getD a 0 = _
      exact ih (resolveStep cells i) a b
        (by rw [resolveStep_length]; exact ha)
        (by rw [resolveStep_length]; exact hb)
        (resolveStep_preserves cells i ha hb h)

theorem resolveCells_length (cells : List Int) :
    (resolveCells cells).length = cells.length :=
  foldl_resolveStep_length _ cells

theorem resolveCells_preserves (cells : List Int) (a b : Nat)
    (ha : a < cells.length) (hb : b < cells.length)
    (h : cells.getD a 0 = cells.getD b 0) :
    (resolveCells cells).getD a 0 = (resolveCells cells).getD b 0 :=
  foldl_resolveStep_preserves _ cells a b ha hb h

theorem setCells_length : ∀ (cs : List ClusterRow) (vs : List Int),
    (setCells cs vs).length = cs.length := by
  intro cs
  induction cs with
  | nil =>
      intro vs
      cases vs <;> rfl
  | cons c cs ih =>
      intro vs
      cases vs with
      | nil => rfl
      | cons v vs =>
          show (setCells cs vs).length + 1 = cs.length + 1
          rw [ih]

theorem setCells_getD : ∀ (cs : List ClusterRow) (vs : List Int) (i : Nat),
    i < cs.length → vs.length = cs.length →
    (setCells cs vs).getD i default
      = { cs.getD i default with cell_label := vs.getD i 0 } := by
  intro cs
  induction cs with
  | nil =>
      intro vs i hi _
      simp at hi
  | cons c cs ih =>
      intro vs i hi hlen
      cases vs with
      | nil => simp at hlen
      | cons v vs =>
          cases i with
          | zero => rfl
          | succ t =>
              show (setCells cs vs).getD t default = _
              rw [ih vs t (by simpa using Nat.lt_of_succ_lt_succ hi)
                (by simpa using hlen)]
              rfl

theorem reindexFrom_length : ∀ (cs : List ClusterRow) (i0 : Nat),
    (reindexFrom i0 cs).length = cs.length := by
  intro cs
  induction cs with
  | nil => intro i0; rfl
  | cons c cs ih =>
      intro i0
      show (reindexFrom (i0 + 1) cs).length + 1 = cs.length + 1
      rw [ih]

theorem reindexFrom_getD : ∀ (cs : List ClusterRow) (i0 t : Nat),
    t < cs.length →
    (reindexFrom i0 cs).getD t default
      = { cs.getD t default with cluster_label := ((i0 + t : Nat) : Int) } := by
  intro cs
  induction cs with
  | nil =>
      intro i0 t ht
      simp at ht
  | cons c cs ih =>
      intro i0 t ht
      cases t with
      | zero => rfl
      | succ t' =>
          show (reindexFrom (i0 + 1) cs).getD t' default = _
          rw [ih (i0 + 1) t' (by simpa using Nat.lt_of_succ_lt_succ ht)]
          have : i0 + 1 + t' = i0 + (t' + 1) := by omega
          rw [this, List.getD_cons_succ]

theorem sortedPos_perm (by_ : OrderBy) (cl : List ClusterRow) :
    (sortedPos by_ cl).Perm (posClusters cl) :=
  List.mergeSort_perm _ _

theorem posClusters_nonneg (cl : List ClusterRow) :
    ∀ c ∈ posClusters cl, 0 ≤ c.cluster_label := by
  intro c hc
  have := (List.mem_filter.mp hc).2
  simpa using this

/-- C5: `order_clusters` preserves the multiset of per-cluster peak
counts — each cluster's peaks are carried bijectively to its new dense
label, the count at new label `i` being the count of the i-th sorted old
label — any two non-negative clusters that shared a `cell_label` before
the call still share one after it (as the rows now labelled by their new
dense indices), and peaks with negative reserved labels are never
reassigned. Hypotheses: the cluster table and peak table exist, at least
one non-negative cluster exists (otherwise Python's `max()` raises), the
non-negative cluster labels are duplicate-free, and every non-negative
peak label occurs in the table (all guaranteed after a rebuild). -/
theorem C5_order_clusters (by_ : OrderBy) (s : CCState) (ps : List Peak)
    (cl : List ClusterRow) (hp : s.all_peaks = some ps)
    (hcl : s.clusters = some cl) (hne : posClusters cl ≠ [])
    (hnodup : ((posClusters cl).map (fun c => c.cluster_label)).Nodup)
    (hcov : ∀ p ∈ ps, 0 ≤ p.label →
      p.label ∈ (posClusters cl).map (fun c => c.cluster_label)) :
    ∃ s', order_clusters by_ s = some s' ∧
      ∃ ps' cl', s'.all_peaks = some ps' ∧ s'.clusters = some cl' ∧
      (∀ i, i < (posClusters cl).length →
        countLabel ps' ((i : Nat) : Int)
          = countLabel ps
            (((sortedPos by_ cl).map (fun c => c.cluster_label)).getD i 0)) ∧
      ((((posClusters cl).map (fun c => c.cluster_label)).map
          (fun k => countLabel ps k) : Multiset Nat)
        = (((List.range (posClusters cl).length).map
            (fun i => countLabel ps' ((i : Nat) : Int))) : Multiset Nat)) ∧
      List.Forall₂ (fun p q => p.label < 0 → q = p) ps ps' ∧
      (∀ a ∈ posClusters cl, ∀ b ∈ posClusters cl,
        a.cell_label = b.cell_label →
        ∃ i j, i < (posClusters cl).length ∧ j < (posClusters cl).length ∧
          (sortedPos by_ cl).getD i default = a ∧
          (sortedPos by_ cl).getD j default = b ∧
          ∃ a' b', a' ∈ cl' ∧ b' ∈ cl' ∧
            a'.cluster_label = ((i : Nat) : Int) ∧
            b'.cluster_label = ((j : Nat) : Int) ∧
            a'.cell_label = b'.cell_label) := by
  have hperm := sortedPos_perm by_ cl
  have hslperm : ((sortedPos by_ cl).map (fun c => c.cluster_label)).Perm
      ((posClusters cl).map (fun c => c.cluster_label)) :=
    hperm.map _
  have hsl_nodup : ((sortedPos by_ cl).map
      (fun c => c.cluster_label)).Nodup :=
    (hslperm.nodup_iff).mpr hnodup
  have hsl_nonneg : ∀ k ∈ (sortedPos by_ cl).map (fun c => c.cluster_label),
      0 ≤ k := by
    intro k hk
    obtain ⟨c, hc, hck⟩ := List.mem_map.mp hk
    rw [← hck]
    exact posClusters_nonneg cl c (hperm.mem_iff.mp hc)
  have hsl_ne : (sortedPos by_ cl).map (fun c => c.cluster_label) ≠ [] := by
    intro hcon
    apply hne
    have h1 : (sortedPos by_ cl) = [] := List.map_eq_nil_iff.mp hcon
    have h2 := hperm.length_eq
    rw [h1] at h2
    exact List.length_eq_zero.mp h2.symm
  obtain ⟨m, hmax⟩ := listMax_isSome hsl_ne
  have hm0 : 0 ≤ m := hsl_nonneg m (listMax_mem hmax)
  have hlate := hlate_of_listMax _ hsl_nodup hsl_nonneg m hmax
  have hN : (0 : Int) ≤ m * 10 := by omega
  have hcov' : ∀ p ∈ ps, 0 ≤ p.label →
      p.label ∈ (sortedPos by_ cl).map (fun c => c.cluster_label) :=
    fun p hp' h0 => hslperm.mem_iff.mpr (hcov p hp' h0)
  have hsortlen : (sortedPos by_ cl).length = (posClusters cl).length :=
    hperm.length_eq
  have hsllen : ((sortedPos by_ cl).map
      (fun c => c.cluster_label)).length = (posClusters cl).length := by
    rw [List.length_map, hsortlen]
  have hoc : order_clusters by_ s = some { s with
      all_peaks := some (ps.map (fun p =>
        { p with label := (orderRelabel
            ((sortedPos by_ cl).map (fun c => c.cluster_label))
            (m * 10) p.label) })),
      clusters := some (negClusters cl ++
        setCells (reindexFrom 0 (sortedPos by_ cl))
          (resolveCells ((sortedPos by_ cl).map
            (fun c => c.cell_label + m * 10)))) } := by
    unfold order_clusters
    rw [hp, hcl]
    dsimp only
    rw [hmax]
  refine ⟨_, hoc, _, _, rfl, rfl, ?_, ?_, ?_, ?_⟩
  · -- per-index count preservation
    intro i hi
    exact countLabel_orderRelabel _ (m * 10) hsl_nodup hsl_nonneg hlate hN
      ps hcov' i (by rw [hsllen]; exact hi)
  · -- multiset of counts
    have hpt : ∀ i ∈ List.range (posClusters cl).length,
        countLabel (ps.map (fun p =>
          { p with label := (orderRelabel
              ((sortedPos by_ cl).map (fun c => c.cluster_label))
              (m * 10) p.label) })) ((i : Nat) : Int)
        = countLabel ps
          (((sortedPos by_ cl).map (fun c => c.cluster_label)).getD i 0) := by
      intro i hi
      exact countLabel_orderRelabel _ (m * 10) hsl_nodup hsl_nonneg hlate hN
        ps hcov' i (by rw [hsllen]; exact List.mem_range.mp hi)
    have hmc : (List.range (posClusters cl).length).map
        (fun i => countLabel (ps.map (fun p =>
          { p with label := (orderRelabel
              ((sortedPos by_ cl).map (fun c => c.cluster_label))
              (m * 10) p.label) })) ((i : Nat) : Int))
        = (List.range (posClusters cl).length).map
          (fun i => countLabel ps
            (((sortedPos by_ cl).map (fun c => c.cluster_label)).getD i 0)) :=
      List.map_congr_left hpt
    rw [Multiset.coe_eq_coe, hmc, ← hsllen, map_getD_range]
    exact (hslperm.map (fun k => countLabel ps k)).symm
  · -- negative labels untouched
    rw [List.forall₂_map_right_iff, List.forall₂_same]
    intro p _ hneg
    have h := orderRelabel_neg _ (m * 10) p.label hsl_nonneg hN hneg
    rw [h]
  · -- cell-label sharing preserved
    intro a ha b hb hceq
    obtain ⟨i, hi, hgi⟩ := List.mem_iff_getElem.mp (hperm.mem_iff.mpr ha)
    obtain ⟨j, hj, hgj⟩ := List.mem_iff_getElem.mp (hperm.mem_iff.mpr hb)
    have hi' : i < (posClusters cl).length := by rw [← hsortlen]; exact hi
    have hj' : j < (posClusters cl).length := by rw [← hsortlen]; exact hj
    have hgdi : (sortedPos by_ cl).getD i default = a := by
      rw [List.getD_eq_getElem _ default hi, hgi]
    have hgdj : (sortedPos by_ cl).getD j default = b := by
      rw [List.getD_eq_getElem _ default hj, hgj]
    refine ⟨i, j, hi', hj', hgdi, hgdj, ?_⟩
    have hcells_len : ((sortedPos by_ cl).map
        (fun c => c.cell_label + m * 10)).length
        = (sortedPos by_ cl).length := List.length_map _ _
    have hrc_len : (resolveCells ((sortedPos by_ cl).map
        (fun c => c.cell_label + m * 10))).length
        = (sortedPos by_ cl).length := by
      rw [resolveCells_length, hcells_len]
    have hri_len : (reindexFrom 0 (sortedPos by_ cl)).length
        = (sortedPos by_ cl).length := reindexFrom_length _ 0
    have hpos'_len : (setCells (reindexFrom 0 (sortedPos by_ cl))
        (resolveCells ((sortedPos by_ cl).map
          (fun c => c.cell_label + m * 10)))).length
        = (sortedPos by_ cl).length := by
      rw [setCells_length, hri_len]
    have hsetA := setCells_getD (reindexFrom 0 (sortedPos by_ cl))
      (resolveCells ((sortedPos by_ cl).map
        (fun c => c.cell_label + m * 10))) i
      (by rw [hri_len]; exact hi) (by rw [hrc_len, hri_len])
    have hsetB := setCells_getD (reindexFrom 0 (sortedPos by_ cl))
      (resolveCells ((sortedPos by_ cl).map
        (fun c => c.cell_label + m * 10))) j
      (by rw [hri_len]; exact hj) (by rw [hrc_len, hri_len])
    refine ⟨(setCells (reindexFrom 0 (sortedPos by_ cl))
        (resolveCells ((sortedPos by_ cl).map
          (fun c => c.cell_label + m * 10)))).getD i default,
      (setCells (reindexFrom 0 (sortedPos by_ cl))
        (resolveCells ((sortedPos by_ cl).map
          (fun c => c.cell_label + m * 10)))).getD j default,
      ?_, ?_, ?_, ?_, ?_⟩
    · apply List.mem_append_right
      have := getD_mem (setCells (reindexFrom 0 (sortedPos by_ cl))
        (resolveCells ((sortedPos by_ cl).map
          (fun c => c.cell_label + m * 10)))) default i
        (by rw [hpos'_len]; exact hi)
      exact this
    · apply List.mem_append_right
      have := getD_mem (setCells (reindexFrom 0 (sortedPos by_ cl))
        (resolveCells ((sortedPos by_ cl).map
          (fun c => c.cell_label + m * 10)))) default j
        (by rw [hpos'_len]; exact hj)
      exact this
    · rw [hsetA]
      show ((reindexFrom 0 (sortedPos by_ cl)).getD i default).cluster_label = _
      rw [reindexFrom_getD _ 0 i hi]
      simp
    · rw [hsetB]
      show ((reindexFrom 0 (sortedPos by_ cl)).getD j default).cluster_label = _
      rw [reindexFrom_getD _ 0 j hj]
      simp
    · rw [hsetA, hsetB]
      show (resolveCells ((sortedPos by_ cl).map
          (fun c => c.cell_label + m * 10))).getD i 0
        = (resolveCells ((sortedPos by_ cl).map
          (fun c => c.cell_label + m * 10))).getD j 0
      apply resolveCells_preserves
      · rw [hcells_len]; exact hi
      · rw [hcells_len]; exact hj
      · rw [getD_map_lt _ _ i hi 0 default, getD_map_lt _ _ j hj 0 default]
        rw [List.getD_eq_getElem _ default hi, hgi,
          List.getD_eq_getElem _ default hj, hgj, hceq]

/-- Two-cluster table with computed rms metrics, for exercising
`order_clusters` concretely. -/
def orderDemoClusters : List ClusterRow :=
  [⟨0, 0, -1, none, some 1, 1⟩, ⟨1, 1, -1, none, some 2, 1⟩]

def orderDemoPeaks : List Peak := [⟨0, 0, 0⟩, ⟨1, 1, 0⟩]

def orderDemoState : CCState :=
  { emptyState with
    all_peaks := some orderDemoPeaks,
    clusters := some orderDemoClusters }

theorem C5_order_clusters_witness :
    ∃ s', order_clusters OrderBy.waveforms_rms orderDemoState = some s' ∧
      ∃ ps' cl', s'.all_peaks = some ps' ∧ s'.clusters = some cl' ∧
      (∀ i, i < (posClusters orderDemoClusters).length →
        countLabel ps' ((i : Nat) : Int)
          = countLabel orderDemoPeaks
            (((sortedPos OrderBy.waveforms_rms orderDemoClusters).map
              (fun c => c.cluster_label)).getD i 0)) ∧
      ((((posClusters orderDemoClusters).map (fun c => c.cluster_label)).map
          (fun k => countLabel orderDemoPeaks k) : Multiset Nat)
        = (((List.range (posClusters orderDemoClusters).length).map
            (fun i => countLabel ps' ((i : Nat) : Int))) : Multiset Nat)) ∧
      List.Forall₂ (fun p q => p.label < 0 → q = p) orderDemoPeaks ps' ∧
      (∀ a ∈ posClusters orderDemoClusters,
        ∀ b ∈ posClusters orderDemoClusters,
        a.cell_label = b.cell_label →
        ∃ i j, i < (posClusters orderDemoClusters).length ∧
          j < (posClusters orderDemoClusters).length ∧
          (sortedPos OrderBy.waveforms_rms orderDemoClusters).getD i default
            = a ∧
          (sortedPos OrderBy.waveforms_rms orderDemoClusters).getD j default
            = b ∧
          ∃ a' b', a' ∈ cl' ∧ b' ∈ cl' ∧
            a'.cluster_label = ((i : Nat) : Int) ∧
            b'.cluster_label = ((j : Nat) : Int) ∧
            a'.cell_label = b'.cell_label) :=
  C5_order_clusters OrderBy.waveforms_rms orderDemoState orderDemoPeaks
    orderDemoClusters rfl rfl (by decide) (by decide) (by decide)

/-- Order-preserving insertion keeping duplicates; folding it realizes
the ascending sort underlying `np.median`. -/
def insertLe (x : ℚ) : List ℚ → List ℚ
  | [] => [x]
  | y :: ys => if x ≤ y then x :: y :: ys else y :: insertLe x ys

def sortLe (l : List ℚ) : List ℚ := l.foldr insertLe []

/-- Embedding of `np.median` on a 1-d array: sort ascending, take the
middle element for odd length and the mean of the two middle elements for
even length. (The empty array, where numpy yields nan, is not exercised
by any claim; 0 is returned.) -/
def npMedian (l : List ℚ) : ℚ :=
  if l.length % 2 = 1 then (sortLe l).getD (l.length / 2) 0
  else ((sortLe l).getD (l.length / 2 - 1) 0
    + (sortLe l).getD (l.length / 2) 0) / 2

/-- Value of a (time-major) waveform at sample offset `t`, channel `c`;
0 outside the array, matching the zero padding of `fftconvolve` in
'same' mode. -/
def wfVal (w : Waveform) (t c : Nat) : ℚ := (w.getD t []).getD c 0

/-- Median over the spike axis (`np.median(wf, axis=0)`, lines 951-954)
of a stack of waveforms of shape `(T, C)` each. -/
def pointwiseMedian (wfs : List Waveform) (T C : Nat) : Waveform :=
  (List.range T).map (fun t => (List.range C).map (fun c =>
    npMedian (wfs.map (fun w => wfVal w t c))))

/-- First discrete central difference along the time axis:
`scipy.signal.fftconvolve(wf, kernel, 'same')` with the symmetric kernel
`[1, 0, -1]/2` (lines 944-947) gives `y[t] = (x[t+1] - x[t-1]) / 2` with
zero padding at both ends. -/
def centralDiff (C : Nat) (w : Waveform) : Waveform :=
  (List.range w.length).map (fun t => (List.range C).map (fun c =>
    (wfVal w (t + 1) c - (if t = 0 then 0 else wfVal w (t - 1) c)) / 2))

/-- The `[2:-2, :]` trim discarding two samples at each end
(lines 952-954). -/
def trim2 (w : Waveform) : Waveform := (w.drop 2).take (w.length - 4)

/-- Order-0 templates of `make_catalogue`: per cluster, the trimmed
median of its member waveforms (lines 951-952). -/
def catalogueCenters0 (labels : List Int) (wfsOf : Int → List Waveform)
    (T C : Nat) : List Waveform :=
  labels.map (fun k => trim2 (pointwiseMedian (wfsOf k) T C))

/-- Order-1 templates: the source convolves each member waveform first and
takes the median of the differentiated stack (`wf1 = fftconvolve(wf0, ...)`
then `np.median(wf1, axis=0)[2:-2]`, lines 946 and 953) — the trimmed
median OF the per-waveform central differences. -/
def catalogueCenters1 (labels : List Int) (wfsOf : Int → List Waveform)
    (T C : Nat) : List Waveform :=
  labels.map (fun k =>
    trim2 (pointwiseMedian ((wfsOf k).map (centralDiff C)) T C))

/-- Order-2 templates: as order 1 with the kernel applied twice
(lines 947 and 954). -/
def catalogueCenters2 (labels : List Int) (wfsOf : Int → List Waveform)
    (T C : Nat) : List Waveform :=
  labels.map (fun k =>
    trim2 (pointwiseMedian
      ((wfsOf k).map (fun w => centralDiff C (centralDiff C w))) T C))

/-- Definition following the SPEC's words for claim C7, not the source:
the order-1 template as the central difference of the (already computed)
median template, trimmed. To be compared against `catalogueCenters1`. -/
def specCenters1 (labels : List Int) (wfsOf : Int → List Waveform)
    (T C : Nat) : List Waveform :=
  labels.map (fun k => trim2 (centralDiff C (pointwiseMedian (wfsOf k) T C)))

/-- Length of `np.arange(start, stop, step)` for a positive step:
`max(0, ceil((stop - start) / step))`. -/
def arangeLen (start stop step : ℚ) : Nat :=
  if 0 < step ∧ start < stop then Nat.ceil ((stop - start) / step) else 0

/-- The oversampling grid `np.arange(1.5, full_width - 2.5, 1/20.)` of
`make_catalogue` (line 925), with its hard-coded subsample factor 20. -/
def subsampleLen (full_width : Nat) : Nat :=
  arangeLen (3 / 2) ((full_width : ℚ) - 5 / 2) (1 / 20)

def zerosMat (r c : Nat) : List (List ℚ) :=
  (List.range r).map (fun _ => (List.range c).map (fun _ => 0))

/-- The oversampled interpolant array allocated at line 927,
`np.zeros((nb_clusters, subsample.size, nchan))`, then filled per cluster
with scipy's cubic `interp1d` evaluated on the grid — a floating-point
computation whose values are outside this model; the claim and this
embedding concern its shape only. -/
def interpCenters0 (labels : List Int) (T C : Nat) : List Waveform :=
  labels.map (fun _ => zerosMat (subsampleLen T) C)

theorem getD_range_map {α : Type} (n : Nat) (f : Nat → α) (i : Nat)
    (hi : i < n) (d : α) : ((List.range n).map f).getD i d = f i := by
  rw [List.getD_eq_getElem _ d (by simpa using hi)]
  simp [List.getElem_map, List.getElem_range]

theorem trim2_length (w : Waveform) : (trim2 w).length = w.length - 4 := by
  unfold trim2
  rw [List.length_take, List.length_drop]
  exact Nat.min_eq_left (by omega)

theorem trim2_getD (w : Waveform) (t : Nat) (ht : t < w.length - 4)
    (d : List ℚ) : (trim2 w).getD t d = w.getD (t + 2) d := by
  unfold trim2
  rw [List.getD_eq_getElem?_getD, List.getD_eq_getElem?_getD,
    List.getElem?_take, if_pos ht, List.getElem?_drop,
    show 2 + t = t + 2 from by omega]

theorem trim2_rows (w : Waveform) : ∀ row ∈ trim2 w, row ∈ w := by
  intro row hrow
  exact ((List.take_sublist _ _).trans (List.drop_sublist _ _)).subset hrow

theorem pointwiseMedian_length (wfs : List Waveform) (T C : Nat) :
    (pointwiseMedian wfs T C).length = T := by
  unfold pointwiseMedian
  simp

theorem pointwiseMedian_rows (wfs : List Waveform) (T C : Nat) :
    ∀ row ∈ pointwiseMedian wfs T C, row.length = C := by
  intro row hrow
  obtain ⟨t, _, hrt⟩ := List.mem_map.mp hrow
  rw [← hrt]
  simp

theorem pointwiseMedian_val (wfs : List Waveform) (T C t c : Nat)
    (ht : t < T) (hc : c < C) :
    wfVal (pointwiseMedian wfs T C) t c
      = npMedian (wfs.map (fun w => wfVal w t c)) := by
  simp only [pointwiseMedian, wfVal]
  rw [getD_range_map T _ t ht, getD_range_map C _ c hc]

theorem centralDiff_length (C : Nat) (w : Waveform) :
    (centralDiff C w).length = w.length := by
  unfold centralDiff
  simp

theorem centralDiff_val (C : Nat) (w : Waveform) (t c : Nat)
    (ht : t < w.length) (hc : c < C) :
    wfVal (centralDiff C w) t c
      = (wfVal w (t + 1) c - (if t = 0 then 0 else wfVal w (t - 1) c)) / 2 := by
  simp only [centralDiff, wfVal]
  rw [getD_range_map w.length _ t ht, getD_range_map C _ c hc]

theorem subsampleLen_eq (T : Nat) (hT : 4 ≤ T) :
    subsampleLen T = 20 * (T - 4) := by
  unfold subsampleLen arangeLen
  by_cases h4 : T = 4
  · subst h4
    norm_num
  · have hT5 : 5 ≤ T := by omega
    have hstop : (3 : ℚ) / 2 < (T : ℚ) - 5 / 2 := by
      have h5 : (5 : ℚ) ≤ (T : ℚ) := by exact_mod_cast hT5
      linarith
    rw [if_pos ⟨by norm_num, hstop⟩]
    have hc : ((T - 4 : ℕ) : ℚ) = (T : ℚ) - 4 := by
      rw [Nat.cast_sub hT]
      norm_num
    have hval : ((T : ℚ) - 5 / 2 - 3 / 2) / (1 / 20)
        = (((T - 4) * 20 : ℕ) : ℚ) := by
      push_cast
      rw [hc]
      field_simp
      ring
    rw [hval, Nat.ceil_natCast]
    omega

def demoWf1 : Waveform := [[0], [0], [0], [0], [0]]

def demoWf2 : Waveform := [[0], [0], [0], [3], [0]]

def demoWf3 : Waveform := [[0], [2], [0], [3], [0]]

/-- A cluster of three one-channel, width-5 member waveforms on which the
median does not commute with the difference kernel. -/
def demoWfs : List Waveform := [demoWf1, demoWf2, demoWf3]

theorem specCenters1_val (labels : List Int) (wfsOf : Int → List Waveform)
    (T C : Nat) (i : Nat) (hi : i < labels.length) (t : Nat)
    (ht : t < T - 4) (c : Nat) (hc : c < C) :
    wfVal ((specCenters1 labels wfsOf T C).getD i []) t c
      = (wfVal (pointwiseMedian (wfsOf (labels.getD i 0)) T C) (t + 3) c
        - wfVal (pointwiseMedian (wfsOf (labels.getD i 0)) T C) (t + 1) c)
        / 2 := by
  unfold specCenters1
  rw [getD_map_lt labels _ i hi [] 0]
  unfold wfVal
  rw [trim2_getD _ t
    (by rw [centralDiff_length, pointwiseMedian_length]; omega) []]
  have hv := centralDiff_val C (pointwiseMedian (wfsOf (labels.getD i 0)) T C)
    (t + 2) c (by rw [pointwiseMedian_length]; omega) hc
  unfold wfVal at hv
  rw [hv]
  have h2 : ¬ (t + 2 = 0) := by omega
  rw [if_neg h2]
  have h3 : t + 2 + 1 = t + 3 := by omega
  have h4 : t + 2 - 1 = t + 1 := by omega
  rw [h3, h4]

theorem catalogueCenters1_val (labels : List Int)
    (wfsOf : Int → List Waveform) (T C : Nat) (i : Nat)
    (hi : i < labels.length) (t : Nat) (ht : t < T - 4) (c : Nat)
    (hc : c < C) :
    wfVal ((catalogueCenters1 labels wfsOf T C).getD i []) t c
      = npMedian ((wfsOf (labels.getD i 0)).map
          ((fun w => wfVal w (t + 2) c) ∘ centralDiff C)) := by
  have ht2 : t + 2 < T := by omega
  unfold catalogueCenters1
  rw [getD_map_lt labels _ i hi [] 0]
  unfold wfVal
  rw [trim2_getD _ t (by rw [pointwiseMedian_length]; omega) []]
  have hv := pointwiseMedian_val
    ((wfsOf (labels.getD i 0)).map (centralDiff C)) T C (t + 2) c ht2 hc
  unfold wfVal at hv
  rw [hv, List.map_map]

theorem insertLe_nil (x : ℚ) : insertLe x [] = [x] := rfl

theorem insertLe_cons (x y : ℚ) (ys : List ℚ) :
    insertLe x (y :: ys)
      = if x ≤ y then x :: y :: ys else y :: insertLe x ys := rfl

theorem sortLe_demo1 : sortLe [(0 : ℚ), 3 / 2, 1 / 2] = [0, 1 / 2, 3 / 2] := by
  show insertLe 0 (insertLe (3 / 2) (insertLe (1 / 2) [])) = _
  rw [insertLe_nil, insertLe_cons,
    if_neg (show ¬ ((3 : ℚ) / 2 ≤ 1 / 2) from by norm_num), insertLe_nil,
    insertLe_cons, if_pos (show ((0 : ℚ) ≤ 1 / 2) from by norm_num)]

theorem npMedian_demo1 : npMedian [(0 : ℚ), 3 / 2, 1 / 2] = 1 / 2 := by
  unfold npMedian
  rw [sortLe_demo1]
  norm_num

theorem sortLe_demo2 : sortLe [(0 : ℚ), 3, 3] = [0, 3, 3] := by
  show insertLe 0 (insertLe 3 (insertLe 3 [])) = _
  rw [insertLe_nil, insertLe_cons,
    if_pos (show ((3 : ℚ) ≤ 3) from le_refl 3), insertLe_cons,
    if_pos (show ((0 : ℚ) ≤ 3) from by norm_num)]

theorem npMedian_demo2 : npMedian [(0 : ℚ), 3, 3] = 3 := by
  unfold npMedian
  rw [sortLe_demo2]
  norm_num

theorem sortLe_demo3 : sortLe [(0 : ℚ), 0, 2] = [0, 0, 2] := by
  show insertLe 0 (insertLe 0 (insertLe 2 [])) = _
  rw [insertLe_nil, insertLe_cons,
    if_pos (show ((0 : ℚ) ≤ 2) from by norm_num), insertLe_cons,
    if_pos (show ((0 : ℚ) ≤ 0) from le_refl 0)]

theorem npMedian_demo3 : npMedian [(0 : ℚ), 0, 2] = 0 := by
  unfold npMedian
  rw [sortLe_demo3]
  norm_num

/-- C7: the claim as frozen fails on the code: the order-1 (and order-2)
template is the trimmed median OF the per-waveform central differences —
not the central difference of the median template, as the claim's reading
"the per-cluster median and its two successive differences" asserts, and
the median does not commute with the difference kernel. On `demoWfs` the
retained central sample of the single cluster gives 1/2 under the code
(median of the per-waveform differences 0, 3/2, 1/2) but 3/2 under the
claim (difference (3 - 0)/2 of the median waveform). -/
theorem C7_centers1_counterexample :
    catalogueCenters1 [0] (fun _ => demoWfs) 5 1
      ≠ specCenters1 [0] (fun _ => demoWfs) 5 1 := by
  intro h
  have hval : wfVal ((catalogueCenters1 [0] (fun _ => demoWfs) 5 1).getD 0 []) 0 0
      = wfVal ((specCenters1 [0] (fun _ => demoWfs) 5 1).getD 0 []) 0 0 := by
    rw [h]
  have hcode : wfVal ((catalogueCenters1 [0]
      (fun _ => demoWfs) 5 1).getD 0 []) 0 0 = 1 / 2 := by
    rw [catalogueCenters1_val [0] (fun _ => demoWfs) 5 1 0 (by norm_num) 0
      (by norm_num) 0 (by norm_num)]
    have hmap : demoWfs.map ((fun w => wfVal w (0 + 2) 0) ∘ centralDiff 1)
        = [0, 3 / 2, 1 / 2] := by
      show [wfVal (centralDiff 1 demoWf1) 2 0,
        wfVal (centralDiff 1 demoWf2) 2 0,
        wfVal (centralDiff 1 demoWf3) 2 0] = _
      rw [centralDiff_val 1 demoWf1 2 0 (by norm_num [demoWf1]) (by norm_num),
        centralDiff_val 1 demoWf2 2 0 (by norm_num [demoWf2]) (by norm_num),
        centralDiff_val 1 demoWf3 2 0 (by norm_num [demoWf3]) (by norm_num)]
      norm_num [demoWf1, demoWf2, demoWf3, wfVal]
    rw [hmap, npMedian_demo1]
  have hspec : wfVal ((specCenters1 [0]
      (fun _ => demoWfs) 5 1).getD 0 []) 0 0 = 3 / 2 := by
    rw [specCenters1_val [0] (fun _ => demoWfs) 5 1 0 (by norm_num) 0
      (by norm_num) 0 (by norm_num)]
    have h3 := pointwiseMedian_val demoWfs 5 1 3 0 (by norm_num) (by norm_num)
    have h1 := pointwiseMedian_val demoWfs 5 1 1 0 (by norm_num) (by norm_num)
    rw [show (0 : Nat) + 3 = 3 from rfl, show (0 : Nat) + 1 = 1 from rfl,
      h3, h1]
    have hm3 : demoWfs.map (fun w => wfVal w 3 0) = [0, 3, 3] := by
      norm_num [demoWfs, demoWf1, demoWf2, demoWf3, wfVal]
    have hm1 : demoWfs.map (fun w => wfVal w 1 0) = [0, 0, 2] := by
      norm_num [demoWfs, demoWf1, demoWf2, demoWf3, wfVal]
    rw [hm3, hm1, npMedian_demo2, npMedian_demo3]
    norm_num
  rw [hcode, hspec] at hval
  norm_num at hval

/-- C7 amended: for C non-negative clusters, working window width `W` and
`channel_count` channels, the order-0/1/2 template tensors each have shape
`(C, W - 4, channel_count)` and the oversampled interpolant has shape
`(C, 20 * (W - 4), channel_count)` — the subsample factor is the
hard-coded 20 of lines 925-926 and `np.arange(1.5, W - 2.5, 1/20)` has
exactly `20 * (W - 4)` points. Content-wise the order-0 tensor is the
trimmed per-cluster median, and the order-1 tensor is the trimmed median
of the per-waveform `[1,0,-1]/2` central differences (derivative before
median, not after). -/
theorem C7_catalogue_shapes (labels : List Int)
    (wfsOf : Int → List Waveform) (T C : Nat) (hT : 4 ≤ T) :
    ((catalogueCenters0 labels wfsOf T C).length = labels.length ∧
      ∀ mtx ∈ catalogueCenters0 labels wfsOf T C,
        mtx.length = T - 4 ∧ ∀ row ∈ mtx, row.length = C) ∧
    ((catalogueCenters1 labels wfsOf T C).length = labels.length ∧
      ∀ mtx ∈ catalogueCenters1 labels wfsOf T C,
        mtx.length = T - 4 ∧ ∀ row ∈ mtx, row.length = C) ∧
    ((catalogueCenters2 labels wfsOf T C).length = labels.length ∧
      ∀ mtx ∈ catalogueCenters2 labels wfsOf T C,
        mtx.length = T - 4 ∧ ∀ row ∈ mtx, row.length = C) ∧
    ((interpCenters0 labels T C).length = labels.length ∧
      ∀ mtx ∈ interpCenters0 labels T C,
        mtx.length = 20 * (T - 4) ∧ ∀ row ∈ mtx, row.length = C) ∧
    subsampleLen T = 20 * (T - 4) ∧
    (∀ i, i < labels.length → ∀ t, t < T - 4 → ∀ c, c < C →
      wfVal ((catalogueCenters0 labels wfsOf T C).getD i []) t c
        = npMedian ((wfsOf (labels.getD i 0)).map
            (fun w => wfVal w (t + 2) c)) ∧
      wfVal ((catalogueCenters1 labels wfsOf T C).getD i []) t c
        = npMedian ((wfsOf (labels.getD i 0)).map
            (fun w => wfVal (centralDiff C w) (t + 2) c))) := by
  have hsub := subsampleLen_eq T hT
  have hshape : ∀ (f : Int → List Waveform) (mtx : Waveform),
      (∃ k, mtx = trim2 (pointwiseMedian (f k) T C)) →
      mtx.length = T - 4 ∧ ∀ row ∈ mtx, row.length = C := by
    rintro f mtx ⟨k, rfl⟩
    refine ⟨?_, ?_⟩
    · rw [trim2_length, pointwiseMedian_length]
    · intro row hrow
      exact pointwiseMedian_rows _ T C row (trim2_rows _ row hrow)
  refine ⟨⟨by simp [catalogueCenters0], ?_⟩,
    ⟨by simp [catalogueCenters1], ?_⟩,
    ⟨by simp [catalogueCenters2], ?_⟩,
    ⟨by simp [interpCenters0], ?_⟩, hsub, ?_⟩
  · intro mtx hmtx
    obtain ⟨k, _, hk⟩ := List.mem_map.mp hmtx
    exact hshape wfsOf mtx ⟨k, hk.symm⟩
  · intro mtx hmtx
    obtain ⟨k, _, hk⟩ := List.mem_map.mp hmtx
    exact hshape (fun k => (wfsOf k).map (centralDiff C)) mtx ⟨k, hk.symm⟩
  · intro mtx hmtx
    obtain ⟨k, _, hk⟩ := List.mem_map.mp hmtx
    exact hshape
      (fun k => (wfsOf k).map (fun w => centralDiff C (centralDiff C w)))
      mtx ⟨k, hk.symm⟩
  · intro mtx hmtx
    obtain ⟨k, _, hk⟩ := List.mem_map.mp hmtx
    rw [← hk]
    unfold zerosMat
    refine ⟨by simp [hsub], ?_⟩
    intro row hrow
    obtain ⟨t, _, hrt⟩ := List.mem_map.mp hrow
    rw [← hrt]
    simp
  · intro i hi t ht c hc
    have ht2 : t + 2 < T := by omega
    constructor
    · unfold catalogueCenters0
      rw [getD_map_lt labels _ i hi [] 0]
      unfold wfVal
      rw [trim2_getD _ t
        (by rw [pointwiseMedian_length]; omega) []]
      have := pointwiseMedian_val (wfsOf (labels.getD i 0)) T C (t + 2) c
        ht2 hc
      unfold wfVal at this
      exact this
    · unfold catalogueCenters1
      rw [getD_map_lt labels _ i hi [] 0]
      unfold wfVal
      rw [trim2_getD _ t
        (by rw [pointwiseMedian_length]; omega) []]
      have hv := pointwiseMedian_val
        ((wfsOf (labels.getD i 0)).map (centralDiff C)) T C (t + 2) c
        ht2 hc
      unfold wfVal at hv
      rw [hv, List.map_map]
      rfl

theorem C7_catalogue_shapes_witness :
    ((catalogueCenters0 [0] (fun _ => []) 10 2).length = 1 ∧
      ∀ mtx ∈ catalogueCenters0 [0] (fun _ => []) 10 2,
        mtx.length = 6 ∧ ∀ row ∈ mtx, row.length = 2) ∧
    ((catalogueCenters1 [0] (fun _ => []) 10 2).length = 1 ∧
      ∀ mtx ∈ catalogueCenters1 [0] (fun _ => []) 10 2,
        mtx.length = 6 ∧ ∀ row ∈ mtx, row.length = 2) ∧
    ((catalogueCenters2 [0] (fun _ => []) 10 2).length = 1 ∧
      ∀ mtx ∈ catalogueCenters2 [0] (fun _ => []) 10 2,
        mtx.length = 6 ∧ ∀ row ∈ mtx, row.length = 2) ∧
    ((interpCenters0 [0] 10 2).length = 1 ∧
      ∀ mtx ∈ interpCenters0 [0] 10 2,
        mtx.length = 120 ∧ ∀ row ∈ mtx, row.length = 2) ∧
    subsampleLen 10 = 120 ∧
    (∀ i, i < ([0] : List Int).length → ∀ t, t < 6 → ∀ c, c < 2 →
      wfVal ((catalogueCenters0 [0] (fun _ => []) 10 2).getD i []) t c
        = npMedian (([] : List Waveform).map
            (fun w => wfVal w (t + 2) c)) ∧
      wfVal ((catalogueCenters1 [0] (fun _ => []) 10 2).getD i []) t c
        = npMedian (([] : List Waveform).map
            (fun w => wfVal (centralDiff 2 w) (t + 2) c))) :=
  C7_catalogue_shapes [0] (fun _ => []) 10 2 (by decide)

end Tridesclous
